import Mathlib

/-!
Verification of the quest_db requirement-tree core (`src/quest_db/__main__.py`).

The Python code builds a mutable tree of `Requirement` objects: each node has a
`parent` back-pointer and an ordered `dependencies` list of children.  We embed
that heap of objects shallowly: a node is identified by a natural-number id, a
`Store` maps ids to node records, and every mutation of the Python code becomes
an explicit store update.  Python exceptions are modelled with an error type
`PErr`; uncaught "accidental" exceptions (AttributeError, IndexError, uncaught
ValueError, missing JSON keys) are conflated into `PErr.pythonCrash`.  Loops
whose termination is not structural (the breadth-first traversals and the
mutually recursive fetch-and-merge) take a fuel argument; running out of fuel
yields `none`, all other outcomes are `some`.  Python string primitives are
modelled over `List Char` so that every definition computes by kernel
reduction.
-/

namespace QuestDb

/-! ### Python string primitives -/

/-- Python's whitespace test for `str.strip()` (ASCII forms, which cover every
string this program handles). -/
def isPySpace (c : Char) : Bool :=
  c = ' ' || c = '\t' || c = '\n' || c = '\x0d' || c = '\x0b' || c = '\x0c'

/-- `str.strip()`: drop whitespace from both ends. -/
def pyStrip (s : List Char) : List Char :=
  ((s.dropWhile isPySpace).reverse.dropWhile isPySpace).reverse

/-- List-prefix test (Bool), used for Python's `startswith` and substring
search. -/
def listIsPre : List Char → List Char → Bool
  | [], _ => true
  | _ :: _, [] => false
  | a :: as, b :: bs => a = b && listIsPre as bs

/-- Python's `needle in hay` substring test. -/
def occursIn (needle : List Char) : List Char → Bool
  | [] => listIsPre needle []
  | c :: rest => listIsPre needle (c :: rest) || occursIn needle rest

/-- Python's `str.split(sep)` for a one-character separator (the only kind the
program uses: `"|"`, `" "` and `"\n"`). -/
def splitChar (sep : Char) : List Char → List (List Char)
  | [] => [[]]
  | c :: rest =>
    match splitChar sep rest with
    | [] => if c = sep then [[], []] else [[c]]
    | h :: t => if c = sep then [] :: h :: t else (c :: h) :: t

/-- Worker for `str.replace` with explicit fuel (one unit per character
consumed, so `s.length` always suffices). -/
def chReplaceGo : Nat → List Char → List Char → List Char → List Char
  | 0, _, _, s => s
  | _ + 1, _, _, [] => []
  | fuel + 1, old, new, c :: rest =>
    if listIsPre old (c :: rest) then
      new ++ chReplaceGo fuel old new ((c :: rest).drop old.length)
    else c :: chReplaceGo fuel old new rest

/-- Python's `str.replace(old, new)` (left-to-right, non-overlapping); the
program only uses nonempty `old`. -/
def chReplace (old new s : List Char) : List Char :=
  chReplaceGo s.length old new s

/-- Models Python `int(s)`: optional surrounding whitespace, an optional sign,
then at least one digit (the underscore digit-grouping form is not needed by
any input of this repository). -/
def parseInt? (s : List Char) : Option Int :=
  let t := pyStrip s
  let (neg, ds) :=
    match t with
    | '-' :: rest => (true, rest)
    | '+' :: rest => (false, rest)
    | rest => (false, rest)
  if 0 < ds.length ∧ ds.all Char.isDigit then
    let n : Nat := ds.foldl (fun acc c => acc * 10 + (c.toNat - 48)) 0
    some (if neg then -(n : Int) else (n : Int))
  else none

/-- Worker for `re.findall(r"\[\[([^\]]+?)\]\]", part)` (line 336) with fuel
(one unit per character consumed): scan for `[[`, take the maximal run of
non-`]` characters (the lazy group has a forced extent because the class
excludes `]`), and accept when it is nonempty and followed by `]]`; on
failure the scan advances one character, like the regex engine. -/
def linkScanGo : Nat → List Char → List String
  | 0, _ => []
  | _ + 1, [] => []
  | fuel + 1, '[' :: '[' :: rest =>
    let content := rest.takeWhile (fun c => c ≠ ']')
    let after := rest.dropWhile (fun c => c ≠ ']')
    match content, after with
    | _ :: _, ']' :: ']' :: tail => String.mk content :: linkScanGo fuel tail
    | _, _ => linkScanGo fuel ('[' :: rest)
  | fuel + 1, _ :: rest => linkScanGo fuel rest

/-- `re.findall(r"\[\[([^\]]+?)\]\]", part)` applied to a string. -/
def findLinks (s : String) : List String := linkScanGo s.data.length s.data

/-! ### The Requirement object heap -/

/-- The four `Requirement` subclasses of `__main__.py` (lines 187-248):
`EmptyRequirement`, `UnknownRequirement(text)`, `QuestRequirement(name)` and
`SkillRequirement(name, level)`. -/
inductive ReqKind where
  | empty : ReqKind
  | unknown (text : String) : ReqKind
  | quest (name : String) : ReqKind
  | skill (name : String) (level : Int) : ReqKind
deriving DecidableEq

/-- One `Requirement` object: its class/payload, its `parent` back-pointer
(`None` encoded as `none`) and its ordered `dependencies` list of child ids
(lines 187-190). -/
structure Node where
  kind : ReqKind
  parent : Option Nat
  deps : List Nat
deriving DecidableEq

/-- The Python heap restricted to `Requirement` objects: ids below `next` may
be allocated, ids at or above `next` are fresh. -/
structure Store where
  get : Nat → Option Node
  next : Nat

/-- Overwrite the record of id `i` (models mutating one object's attributes). -/
def Store.set (s : Store) (i : Nat) (nd : Node) : Store :=
  ⟨fun j => if j = i then some nd else s.get j, s.next⟩

/-- Allocate a fresh `Requirement` object with no parent and no dependencies
(the `Requirement.__init__` at lines 188-190). -/
def Store.alloc (s : Store) (k : ReqKind) : Nat × Store :=
  (s.next, ⟨fun j => if j = s.next then some ⟨k, none, []⟩ else s.get j, s.next + 1⟩)

/-- The `kind` of the object at id `i`, if allocated. -/
def Store.kindAt (s : Store) (i : Nat) : Option ReqKind :=
  (s.get i).map Node.kind

/-- The `parent` attribute of the object at id `i`; an unallocated id is
conflated with a `None` parent (uses are guarded by allocation facts). -/
def Store.parentAt (s : Store) (i : Nat) : Option Nat :=
  (s.get i).bind Node.parent

/-- The `dependencies` attribute of the object at id `i`; an unallocated id is
conflated with an empty list (uses are guarded by allocation facts). -/
def Store.depsAt (s : Store) (i : Nat) : List Nat :=
  ((s.get i).map Node.deps).getD []

/-- `Requirement.add_dependency` (lines 192-194): append the child to the
parent's `dependencies`, then set the child's `parent`.  `none` models the
AttributeError Python would raise on an invalid object. -/
def addDependency (s : Store) (parentId childId : Nat) : Option Store :=
  match s.get parentId with
  | none => none
  | some pn =>
    let s1 := s.set parentId { pn with deps := pn.deps ++ [childId] }
    match s1.get childId with
    | none => none
    | some cn => some (s1.set childId { cn with parent := some parentId })

/-- The exceptions of `__main__.py` (lines 22-35) plus a catch-all for
accidental Python crashes (AttributeError and friends). -/
inductive PErr where
  | tooManyAddedLevels : PErr
  | noRemainingParents : PErr
  | detailsNotFound : PErr
  | tooManyDetailsFound : PErr
  | pythonCrash : PErr
deriving DecidableEq

/-- The `dot_repr` property of each `Requirement` subclass (lines 219-248);
the base class and `EmptyRequirement` have none, so reading it is an
AttributeError, modelled as `none`. -/
def dotRepr : ReqKind → Option String
  | .empty => none
  | .unknown t => some ("\"" ++ t ++ "\"")
  | .quest n => some ("\"" ++ n ++ "\"")
  | .skill n l => some ("\"" ++ toString l ++ " " ++ n ++ "\"")

/-- The `name` attribute of a `Requirement`, present only on quest and skill
nodes (`UnknownRequirement` stores `text` instead); reading it elsewhere is an
AttributeError. -/
def nameAttr : ReqKind → Option String
  | .quest n => some n
  | .skill n _ => some n
  | _ => none

/-- `isinstance(x, QuestRequirement)` on a node kind. -/
def ReqKind.isQuest : ReqKind → Bool
  | .quest _ => true
  | _ => false

/-- `isinstance(x, SkillRequirement)` on a node kind. -/
def ReqKind.isSkill : ReqKind → Bool
  | .skill _ _ => true
  | _ => false

/-- Python set-add on the visited-set / scheduled-set, kept as a list. -/
def addName (x : String) (l : List String) : List String :=
  if x ∈ l then l else l ++ [x]

/-! ### The indentation parser (`parse_requirements`, line loop) -/

/-- The mutable state of the line loop of `parse_requirements`
(lines 289-292): the current store, the insertion point `requirement`
(`none` after descending into a `None` `last_req`), `last_req`, `last_level`
and the accumulated `quests_to_fetch`. -/
structure PState where
  s : Store
  req : Option Nat
  lastReq : Option Nat
  lastLevel : Nat
  toFetch : List String

/-- The `while current_level < last_level` ascent (lines 305-310): climb one
parent at a time, decrementing `last_level`, failing with
`NoRemainingParentsError` when the insertion point is the anchor
`root_requirement` or has no parent.  A `none` insertion point gives the
AttributeError of `None.parent`. -/
def ascend (s : Store) (anchor : Nat) (cl : Nat) :
    Option Nat → Nat → Except PErr (Option Nat × Nat)
  | req, 0 => .ok (req, 0)
  | req, ll + 1 =>
    if cl < ll + 1 then
      match req with
      | none => .error .pythonCrash
      | some r =>
        if r = anchor then .error .noRemainingParents
        else
          match s.get r with
          | none => .error .pythonCrash
          | some nd =>
            match nd.parent with
            | none => .error .noRemainingParents
            | some p => ascend s anchor cl (some p) ll
    else .ok (req, ll + 1)

/-- The indentation bookkeeping of lines 298-310: a jump of more than one
level deeper raises `TooManyAddedLevelsError`; exactly one level deeper
descends into `last_req`; otherwise ascend while shallower. -/
def levelAdjust (s : Store) (anchor : Nat) (req lastReq : Option Nat)
    (cl ll : Nat) : Except PErr (Option Nat × Nat) :=
  if cl > ll then
    if cl - ll > 1 then .error .tooManyAddedLevels
    else .ok (lastReq, cl)
  else ascend s anchor cl req ll

/-- Attach a freshly created requirement at the insertion point:
`requirement.add_dependency(last_req)` with `last_req` freshly constructed.
A `none` insertion point models the AttributeError of
`None.add_dependency`. -/
def attachFresh (st : PState) (k : ReqKind) (cl : Nat) : Except PErr PState :=
  match st.req with
  | none => .error .pythonCrash
  | some r =>
    let (c, s1) := st.s.alloc k
    match addDependency s1 r c with
    | none => .error .pythonCrash
    | some s2 => .ok { st with s := s2, req := some r, lastReq := some c, lastLevel := cl }

/-- Process one line of the requirement markup: the body of the `for part in
...` loop of `parse_requirements` (lines 293-350). -/
def parseLine (questExists : String → Bool) (fetched : List String)
    (anchor : Nat) (st : PState) (line : String) : Except PErr PState :=
  -- part = part[1:]; full_len = len(part); part = part.lstrip("*")
  let part0 := line.data.drop 1
  let fullLen := part0.length
  let part := part0.dropWhile (fun c => c = '*')
  let cl := fullLen - part.length
  match levelAdjust st.s anchor st.req st.lastReq cl st.lastLevel with
  | .error e => .error e
  | .ok (req1, ll1) =>
    let st1 : PState := { st with req := req1, lastLevel := ll1 }
    -- line 312: neither `{{` nor `[[` occurs → EmptyRequirement
    if ¬ (occursIn "\x7b\x7b".data part || occursIn "[[".data part) then
      attachFresh st1 .empty ll1
    else if occursIn "Skill clickpic".data part then
      if listIsPre "\x7b\x7b".data part then
        -- template-call syntax (lines 318-322); failures here are uncaught
        let skillParts := splitChar '|' (chReplace "\x7d".data [] (chReplace "\x7b".data [] part))
        match skillParts.get? 1, skillParts.get? 2 with
        | some nm, some lvlPart =>
          match parseInt? (((splitChar ' ' lvlPart).get? 0).getD []) with
          | some lvl => attachFresh st1 (.skill (String.mk nm) lvl) ll1
          | none => .error .pythonCrash
        | _, _ => .error .pythonCrash
      else
        -- inline icon-link syntax inside try/except (lines 323-331):
        -- any failure is logged and the line is skipped
        let spaceParts := splitChar ' ' part
        match parseInt? ((spaceParts.get? 0).getD []) with
        | none => .ok st1
        | some lvl =>
          match spaceParts.get? 2 with
          | none => .ok st1
          | some sp2 =>
            match (splitChar '|' sp2).get? 1 with
            | none => .ok st1
            | some nm =>
              attachFresh st1 (.skill (String.mk (chReplace "\x7d\x7d".data [] nm)) lvl) ll1
    else
      -- wiki-link classification (lines 336-350)
      let afterLinks : Except PErr (PState × Bool) :=
        (findLinks (String.mk part)).foldl
          (fun acc m =>
            match acc with
            | .error e => .error e
            | .ok (st2, found) =>
              if questExists m then
                let st3 := { st2 with
                  toFetch := if m ∈ fetched then st2.toFetch else addName m st2.toFetch }
                match attachFresh st3 (.quest m) ll1 with
                | .error e => .error e
                | .ok st4 => .ok (st4, true)
              else .ok (st2, found))
          (.ok (st1, false))
      match afterLinks with
      | .error e => .error e
      | .ok (st5, found) =>
        if found then .ok st5
        else
          attachFresh st5
            (.unknown (String.mk
              (chReplace "]".data [] (chReplace "[".data []
                (part.dropWhile (fun c => c = '*'))))))
            ll1

/-- The whole line loop of `parse_requirements` (lines 293-350). -/
def parseLines (questExists : String → Bool) (fetched : List String)
    (anchor : Nat) : List String → PState → Except PErr PState
  | [], st => .ok st
  | l :: rest, st =>
    match parseLine questExists fetched anchor st l with
    | .error e => .error e
    | .ok st1 => parseLines questExists fetched anchor rest st1

/-! ### `find_quest`, `remove_empty_requirements`, `build_dot_repr` -/

/-- The breadth-first queue walk of `find_quest` (lines 365-378): pop the
front, return it if it is a `QuestRequirement` with the searched name,
otherwise enqueue its children.  `none` is fuel exhaustion. -/
def findQuestLoop (fuel : Nat) (s : Store) (name : String) :
    List Nat → Option (Except PErr (Option Nat))
  | [] => some (.ok none)
  | d :: rest =>
    match fuel with
    | 0 => none
    | fuel + 1 =>
      match s.get d with
      | none => some (.error .pythonCrash)
      | some nd =>
        if nd.kind = .quest name then some (.ok (some d))
        else findQuestLoop fuel s name (rest ++ nd.deps)

/-- `find_quest` (lines 361-378).  The early return at line 362 reads
`requirements.name`, which is an AttributeError unless the root is a quest or
skill node. -/
def findQuest (fuel : Nat) (s : Store) (rootId : Nat) (name : String) :
    Option (Except PErr (Option Nat)) :=
  match s.get rootId with
  | none => some (.error .pythonCrash)
  | some nd =>
    if nd.deps = [] then
      match nameAttr nd.kind with
      | none => some (.error .pythonCrash)
      | some nm =>
        if nm ≠ name then some (.ok none)
        else findQuestLoop fuel s name nd.deps
    else findQuestLoop fuel s name nd.deps

/-- The inner `for dep in dependency.dependencies` loop of
`remove_empty_requirements` when the dequeued node `d` is an
`EmptyRequirement` (lines 263-267): re-parent each child to `d`'s current
parent and splice it into that parent's dependency list.  Python reads
`dependency.parent` afresh at each iteration, so we do too. -/
def reparentLoop (d : Nat) : Store → List Nat → Except PErr Store
  | s, [] => .ok s
  | s, c :: more =>
    match s.get d with
    | none => .error .pythonCrash
    | some dn =>
      match s.get c with
      | none => .error .pythonCrash
      | some cn =>
        -- dep.parent = dependency.parent
        let s1 := s.set c { cn with parent := dn.parent }
        -- dep.parent.add_dependency(dep)
        match dn.parent with
        | none => .error .pythonCrash
        | some p =>
          match addDependency s1 p c with
          | none => .error .pythonCrash
          | some s2 => reparentLoop d s2 more

/-- One iteration of the `while queue` loop of `remove_empty_requirements`
(lines 260-271): process the dequeued id `d` and return the updated store with
the ids to append to the queue (`d`'s dependencies, read once at the top, as
Python's iterator does).  For an `EmptyRequirement`, after the child loop the
node is removed from its parent's list (`list.remove`, first occurrence, a
ValueError crash if absent) and its parent cleared. -/
def rmStep (s : Store) (d : Nat) : Except PErr (Store × List Nat) :=
  match s.get d with
  | none => .error .pythonCrash
  | some nd =>
    if nd.kind = .empty then
      match reparentLoop d s nd.deps with
      | .error e => .error e
      | .ok s1 =>
        match s1.get d with
        | none => .error .pythonCrash
        | some nd1 =>
          match nd1.parent with
          | none => .error .pythonCrash
          | some p =>
            match s1.get p with
            | none => .error .pythonCrash
            | some pn =>
              if d ∈ pn.deps then
                let s2 := s1.set p { pn with deps := pn.deps.erase d }
                match s2.get d with
                | none => .error .pythonCrash
                | some nd2 => .ok (s2.set d { nd2 with parent := none }, nd.deps)
              else .error .pythonCrash
    else .ok (s, nd.deps)

/-- The `while queue` loop of `remove_empty_requirements` (lines 260-271),
with fuel for the unbounded queue. -/
def rmLoop : Nat → Store → List Nat → Option (Except PErr Store)
  | _, s, [] => some (.ok s)
  | 0, _, _ :: _ => none
  | fuel + 1, s, d :: rest =>
    match rmStep s d with
    | .error e => some (.error e)
    | .ok (s1, enq) => rmLoop fuel s1 (rest ++ enq)

/-- `remove_empty_requirements` (lines 251-273): no-op when the argument is
`None` or the root has no dependencies, otherwise run the queue loop seeded
with the root's dependencies.  The Python function returns its argument, so
the modelled result is just the updated store. -/
def removeEmptyRequirements (fuel : Nat) (s : Store) (req : Option Nat) :
    Option (Except PErr Store) :=
  match req with
  | none => some (.ok s)
  | some r =>
    match s.get r with
    | none => some (.error .pythonCrash)
    | some nd =>
      if nd.deps = [] then some (.ok s)
      else rmLoop fuel s nd.deps

/-- The breadth-first walk of `build_dot_repr` (lines 396-406), accumulating
the quest labels, skill labels and edge lines in order. -/
def dotLoop (s : Store) : Nat →
    List Nat → List String → List String → List String →
    Option (Except PErr (List String × List String × List String))
  | _, [], quests, skills, paths => some (.ok (quests, skills, paths))
  | 0, _ :: _, _, _, _ => none
  | fuel + 1, d :: rest, quests, skills, paths =>
    match s.get d with
    | none => some (.error .pythonCrash)
    | some nd =>
      match dotRepr nd.kind with
      | none => some (.error .pythonCrash)
      | some rep =>
        let quests1 := if nd.kind.isQuest then quests ++ [rep ++ ";"] else quests
        let skills1 :=
          if nd.kind.isQuest then skills
          else if nd.kind.isSkill then skills ++ [rep ++ ";"] else skills
        match nd.parent with
        | none => some (.error .pythonCrash)
        | some p =>
          match s.get p with
          | none => some (.error .pythonCrash)
          | some pnd =>
            match dotRepr pnd.kind with
            | none => some (.error .pythonCrash)
            | some prep =>
              dotLoop s fuel (rest ++ nd.deps) quests1 skills1
                (paths ++ [rep ++ " -> " ++ prep ++ ";"])

/-- `build_dot_repr` (lines 381-417).  A root with no dependencies serializes
to just its own quoted label; otherwise the groups are assembled into a
`digraph` block. -/
def buildDotRepr (fuel : Nat) (s : Store) (rootId : Nat) :
    Option (Except PErr String) :=
  match s.get rootId with
  | none => some (.error .pythonCrash)
  | some nd =>
    match dotRepr nd.kind with
    | none => some (.error .pythonCrash)
    | some initialRepr =>
      if nd.deps = [] then some (.ok initialRepr)
      else
        match dotLoop s fuel nd.deps [initialRepr ++ ";"] [] [] with
        | none => none
        | some (.error e) => some (.error e)
        | some (.ok (quests, skills, paths)) =>
          let lines :=
            ["digraph \x7b", "  node[style=filled, fillcolor=darkslategray1];"]
            ++ quests.map (fun q => "  " ++ q)
            ++ (if skills ≠ [] then
                  ["  node[style=filled, fillcolor=darkseagreen];"]
                  ++ skills.map (fun sk => "  " ++ sk)
                else [])
            ++ ["  node[style=filled, fillcolor=white];"]
            ++ paths.map (fun pth => "  " ++ pth)
            ++ ["\x7d"]
          some (.ok (String.intercalate "\n" lines))

/-! ### The recursive fetch-and-merge -/

/-- Insert into a ≤-sorted list of strings. -/
def insertSortedStr (x : String) : List String → List String
  | [] => [x]
  | y :: ys => if x ≤ y then x :: y :: ys else y :: insertSortedStr x ys

/-- `sorted(quests_to_fetch)` (line 352): Python's `sorted` on a set of quest
names is an ascending lexicographic list. -/
def sortStrings (l : List String) : List String :=
  l.foldr insertSortedStr []

/-- A `Quest details` template of a fetched wiki page as the code observes it
through `mwparserfromhell`: whether its name matches the `Quest details`
filter, and its `requirements` parameter when present (`template.get` raises
ValueError when absent). -/
structure MTemplate where
  isQuestDetails : Bool
  requirementsParam : Option String

/-- The external document source: for a quest name, the list of templates of
its `<name>/Quick guide` page, or `none` when the page/API response is
missing (a KeyError crash in the Python JSON access). -/
def Env : Type := String → Option (List MTemplate)

/-- The `for quest in sorted(quests_to_fetch)` loop (lines 352-356),
parameterized by the recursive merge of the next-lower fuel level: merge each
scheduled quest into the same base tree, then add it to the visited-set
(after, not before, the merge returns). -/
def fetchLoopG
    (recur : String → Nat → Store → List String →
      Option (Except PErr (Nat × Store × List String))) :
    List String → Nat → Store → List String →
    Option (Except PErr (Store × List String))
  | [], _, s, fetched => some (.ok (s, fetched))
  | q :: more, baseId, s, fetched =>
    match recur q baseId s fetched with
    | none => none
    | some (.error e) => some (.error e)
    | some (.ok (_, s1, fetched1)) =>
      fetchLoopG recur more baseId s1 (addName q fetched1)

/-- `parse_requirements` (lines 276-358), parameterized by the recursive
merge: anchor at the quest's existing node when present, run the line loop,
recursively fetch every newly scheduled quest in sorted order, and clean the
anchored subtree. -/
def parseRequirementsG
    (recur : String → Nat → Store → List String →
      Option (Except PErr (Nat × Store × List String)))
    (fuel : Nat) (questExists : String → Bool) (questName reqText : String)
    (baseId : Nat) (s : Store) (fetched : List String) :
    Option (Except PErr (Nat × Store × List String)) :=
  match findQuest fuel s baseId questName with
  | none => none
  | some (.error e) => some (.error e)
  | some (.ok found) =>
    let rootId := found.getD baseId
    -- str(wiki_requirements).strip().split("\n")
    let lines := (splitChar '\n' (pyStrip reqText.data)).map String.mk
    match parseLines questExists fetched baseId lines
        ⟨s, some rootId, none, 0, []⟩ with
    | .error e => some (.error e)
    | .ok st =>
      match fetchLoopG recur (sortStrings st.toFetch) baseId st.s fetched with
      | none => none
      | some (.error e) => some (.error e)
      | some (.ok (s2, fetched2)) =>
        match removeEmptyRequirements fuel s2 (some rootId) with
        | none => none
        | some (.error e) => some (.error e)
        | some (.ok s3) => some (.ok (rootId, s3, fetched2))

/-- `get_quest_requirements_and_merge` (lines 420-460): fetch the page, find
exactly one `Quest details` template, and either return a fresh detached
`QuestRequirement` when the `requirements` parameter is absent (adding the
name to the visited-set), or parse the requirement markup into the tree.
Fuel decreases on every recursive merge; `none` means it ran out. -/
def getQuestRequirementsAndMerge :
    Nat → Env → (String → Bool) → String → Nat → Store → List String →
    Option (Except PErr (Nat × Store × List String))
  | 0, _, _, _, _, _, _ => none
  | fuel + 1, env, questExists, questName, baseId, s, fetched =>
    match env questName with
    | none => some (.error .pythonCrash)
    | some page =>
      match page.filter (fun t => t.isQuestDetails) with
      | [] => some (.error .detailsNotFound)
      | _ :: _ :: _ => some (.error .tooManyDetailsFound)
      | [t] =>
        match t.requirementsParam with
        | none =>
          -- except ValueError (lines 450-452)
          let (rid, s1) := s.alloc (.quest questName)
          some (.ok (rid, s1, addName questName fetched))
        | some reqText =>
          parseRequirementsG
            (fun q b st f => getQuestRequirementsAndMerge fuel env questExists q b st f)
            fuel questExists questName reqText baseId s fetched

/-- `parse_requirements` (lines 276-358) as a standalone entry point, tying
the recursive merges to `getQuestRequirementsAndMerge` at the same fuel. -/
def parseRequirements (fuel : Nat) (env : Env) (questExists : String → Bool)
    (questName reqText : String) (baseId : Nat) (s : Store)
    (fetched : List String) :
    Option (Except PErr (Nat × Store × List String)) :=
  parseRequirementsG
    (fun q b st f => getQuestRequirementsAndMerge fuel env questExists q b st f)
    fuel questExists questName reqText baseId s fetched

/-- `get_quest_requirements` (lines 463-470): start from a fresh store whose
only node is a `QuestRequirement` for the queried quest, an empty visited-set,
and serialize the merged tree. -/
def getQuestRequirements (fuel : Nat) (env : Env)
    (questExists : String → Bool) (questName : String) :
    Option (Except PErr String) :=
  let s0 : Store := ⟨fun _ => none, 0⟩
  let (rootId, s1) := s0.alloc (.quest questName)
  match getQuestRequirementsAndMerge fuel env questExists questName rootId s1 [] with
  | none => none
  | some (.error e) => some (.error e)
  | some (.ok (rid, s2, _)) => buildDotRepr fuel s2 rid

/-! ### Concrete fixtures shared by witnesses and scenarios -/

/-- A store holding a single quest root, as `get_quest_requirements` builds
before merging. -/
def rootOnlyStore : Store :=
  ⟨fun j => if j = 0 then some ⟨.quest "Root", none, []⟩ else none, 1⟩

/-- An environment whose only page has one `Quest details` template without a
`requirements` parameter. -/
def envNoReqField : Env :=
  fun n => if n = "B" then some [⟨true, none⟩] else none

/-! ### Claims about the indentation parser -/

/-- C3: whenever a line's computed indentation level exceeds the previous
line's level, the parser raises `TooManyAddedLevelsError` if the jump exceeds
one level, and descends into the previously created node (`last_req`) exactly
when the difference is one; in particular parsing a jump from level 1
directly to level 3 (lines `*a`, `**b`, `****c`) raises the error. -/
theorem c3_too_many_added_levels (s : Store) (anchor : Nat)
    (req lastReq : Option Nat) (cl ll : Nat) (h : cl > ll) :
    (cl - ll > 1 → levelAdjust s anchor req lastReq cl ll = .error .tooManyAddedLevels) ∧
    (cl - ll = 1 → levelAdjust s anchor req lastReq cl ll = .ok (lastReq, cl)) ∧
    parseLines (fun _ => false) [] 0 ["*a", "**b", "****c"]
      ⟨rootOnlyStore, some 0, none, 0, []⟩ = .error .tooManyAddedLevels := by
  refine ⟨fun hd => ?_, fun hd => ?_, rfl⟩
  · simp [levelAdjust, h, hd]
  · simp [levelAdjust, h, hd]

/-- Witness for C3 at concrete inputs: a jump from level 1 to level 3. -/
theorem c3_witness :
    levelAdjust rootOnlyStore 0 (some 0) none 3 1 = .error .tooManyAddedLevels :=
  (c3_too_many_added_levels rootOnlyStore 0 (some 0) none 3 1 (by decide)).1 (by decide)

/-- C4: whenever a line's indentation level is lower than the previous
line's, the parser ascends one level at a time by replacing the insertion
point with its parent, and raises `NoRemainingParentsError` when the
insertion point is the anchor root or has no parent; the concrete input
`*a`, `**x [[y]] Skill clickpic`, `***w`, `*v` (whose level-0 last line
attempts to ascend past the root) aborts the parse with that error. -/
theorem c4_no_remaining_parents (s : Store) (anchor : Nat) (req : Option Nat)
    (cl ll : Nat) (h : cl < ll + 1) :
    (req = some anchor → ascend s anchor cl req (ll + 1) = .error .noRemainingParents) ∧
    (∀ r nd, req = some r → r ≠ anchor → s.get r = some nd → nd.parent = none →
      ascend s anchor cl req (ll + 1) = .error .noRemainingParents) ∧
    (∀ r nd p, req = some r → r ≠ anchor → s.get r = some nd → nd.parent = some p →
      ascend s anchor cl req (ll + 1) = ascend s anchor cl (some p) ll) ∧
    parseLines (fun _ => false) [] 0 ["*a", "**x [[y]] Skill clickpic", "***w", "*v"]
      ⟨rootOnlyStore, some 0, none, 0, []⟩ = .error .noRemainingParents := by
  refine ⟨fun hr => ?_, fun r nd hr hne hget hp => ?_,
    fun r nd p hr hne hget hp => ?_, rfl⟩
  · subst hr; simp [ascend, h]
  · subst hr; simp [ascend, h, hne, hget, hp]
  · subst hr; simp [ascend, h, hne, hget, hp]

/-- Witness for C4 at concrete inputs: the insertion point is the anchor. -/
theorem c4_witness :
    ascend rootOnlyStore 0 0 (some 0) 1 = .error .noRemainingParents :=
  (c4_no_remaining_parents rootOnlyStore 0 (some 0) 0 0 (by decide)).1 rfl

/-- C5: parsing `*{{Skill clickpic|Attack|40}}` followed by
`**[[Some Quest]]`, with `Some Quest` a known quest title not in the
visited-set, produces the chain root → SkillRequirement(Attack, 40) →
QuestRequirement(Some Quest) and schedules `Some Quest` for fetching. -/
theorem c5_skill_then_quest_scenario (qe : String → Bool) (fetched : List String)
    (hknown : qe "Some Quest" = true) (hnf : "Some Quest" ∉ fetched) :
    ∃ st, parseLines qe fetched 0
        ["*{{Skill clickpic|Attack|40}}", "**[[Some Quest]]"]
        ⟨rootOnlyStore, some 0, none, 0, []⟩ = .ok st ∧
      st.s.get 0 = some ⟨.quest "Root", none, [1]⟩ ∧
      st.s.get 1 = some ⟨.skill "Attack" 40, some 0, [2]⟩ ∧
      st.s.get 2 = some ⟨.quest "Some Quest", some 1, []⟩ ∧
      st.toFetch = ["Some Quest"] := by
  simp +decide [parseLines, parseLine, hknown, hnf, levelAdjust, ascend, attachFresh,
    addDependency, Store.alloc, Store.set, addName, rootOnlyStore, splitChar, chReplace,
    chReplaceGo, parseInt?, pyStrip, listIsPre, occursIn, linkScanGo, findLinks]

/-- Witness for C5 at a concrete quest database and empty visited-set. -/
theorem c5_witness :
    ∃ st, parseLines (fun n => n == "Some Quest") [] 0
        ["*{{Skill clickpic|Attack|40}}", "**[[Some Quest]]"]
        ⟨rootOnlyStore, some 0, none, 0, []⟩ = .ok st ∧
      st.s.get 0 = some ⟨.quest "Root", none, [1]⟩ ∧
      st.s.get 1 = some ⟨.skill "Attack" 40, some 0, [2]⟩ ∧
      st.s.get 2 = some ⟨.quest "Some Quest", some 1, []⟩ ∧
      st.toFetch = ["Some Quest"] :=
  c5_skill_then_quest_scenario (fun n => n == "Some Quest") [] (by decide) (by decide)

/-! ### Claims about `find_quest` -/

/-- The child relation of the object heap: `b` occurs in the `dependencies`
list of `a`. -/
def childRel (s : Store) (a b : Nat) : Prop := b ∈ s.depsAt a

/-- A store fixture: quest root 0 → empty node 1 → quest "B" node 2. -/
def chainStore : Store := ⟨fun j =>
  if j = 0 then some ⟨.quest "R", none, [1]⟩
  else if j = 1 then some ⟨.empty, some 0, [2]⟩
  else if j = 2 then some ⟨.quest "B", some 1, []⟩
  else none, 3⟩

/-- BFS invariant of `find_quest`: when every queued id is a strict descendant
of the root, a successful search yields `None` or a strict descendant holding
a `QuestRequirement` with the searched name. -/
theorem findQuestLoop_ok (name : String) :
    ∀ (fuel : Nat) (s : Store) (q : List Nat) (root : Nat)
      (_ : ∀ x ∈ q, Relation.TransGen (childRel s) root x) (res : Option Nat)
      (_ : findQuestLoop fuel s name q = some (.ok res)),
      res = none ∨ ∃ d nd, res = some d ∧ s.get d = some nd ∧
        nd.kind = .quest name ∧ Relation.TransGen (childRel s) root d := by
  intro fuel
  induction fuel with
  | zero =>
    intro s q root hq res hres
    cases q with
    | nil => simp [findQuestLoop] at hres; simp [hres]
    | cons d rest => simp [findQuestLoop] at hres
  | succ fuel ih =>
    intro s q root hq res hres
    cases q with
    | nil => simp [findQuestLoop] at hres; simp [hres]
    | cons d rest =>
      cases hget : s.get d with
      | none => simp [findQuestLoop, hget] at hres
      | some nd =>
        simp only [findQuestLoop, hget] at hres
        by_cases hkind : nd.kind = .quest name
        · rw [if_pos hkind] at hres
          simp at hres
          exact Or.inr ⟨d, nd, by simp [hres], hget, hkind, hq d (by simp)⟩
        · rw [if_neg hkind] at hres
          refine ih s (rest ++ nd.deps) root ?_ res hres
          intro x hx
          rcases List.mem_append.mp hx with hx | hx
          · exact hq x (List.mem_cons_of_mem _ hx)
          · exact Relation.TransGen.tail (hq d (List.mem_cons_self _ _))
              (by simp [childRel, Store.depsAt, hget, hx])

/-- C9: a successful `find_quest` never returns the node it was given: the
result is `None` or a strict descendant of the given root (a chain of one or
more `dependencies` edges) that is a `QuestRequirement` bearing the searched
name; under acyclicity the result therefore differs from the root, and a
childless root bearing the searched name yields `None` rather than the
root. -/
theorem c9_find_quest_strict_descendant (fuel : Nat) (s : Store)
    (rootId : Nat) (name : String) (res : Option Nat)
    (hok : findQuest fuel s rootId name = some (.ok res)) :
    (res = none ∨ ∃ d nd, res = some d ∧ s.get d = some nd ∧
      nd.kind = .quest name ∧ Relation.TransGen (childRel s) rootId d) ∧
    (¬ Relation.TransGen (childRel s) rootId rootId →
      ∀ d, res = some d → d ≠ rootId) ∧
    (∀ nd, s.get rootId = some nd → nd.deps = [] → nd.kind = .quest name →
      res = none) := by
  have main : res = none ∨ ∃ d nd, res = some d ∧ s.get d = some nd ∧
      nd.kind = .quest name ∧ Relation.TransGen (childRel s) rootId d := by
    cases hget : s.get rootId with
    | none => simp [findQuest, hget] at hok
    | some nd =>
      simp only [findQuest, hget] at hok
      have hq : ∀ x ∈ nd.deps, Relation.TransGen (childRel s) rootId x := by
        intro x hx
        exact Relation.TransGen.single (by simp [childRel, Store.depsAt, hget, hx])
      by_cases hdeps : nd.deps = []
      · rw [if_pos hdeps] at hok
        cases hname : nameAttr nd.kind with
        | none => simp [hname] at hok
        | some nm =>
          simp only [hname] at hok
          by_cases hne : nm ≠ name
          · rw [if_pos hne] at hok; simp at hok; simp [hok]
          · rw [if_neg hne] at hok
            exact findQuestLoop_ok name fuel s nd.deps rootId hq res hok
      · rw [if_neg hdeps] at hok
        exact findQuestLoop_ok name fuel s nd.deps rootId hq res hok
  refine ⟨main, ?_, ?_⟩
  · intro hacyc d hd
    rcases main with h | ⟨d', nd, hd', _, _, htrans⟩
    · rw [h] at hd; cases hd
    · rw [hd'] at hd
      cases hd
      intro heq
      exact hacyc (heq ▸ htrans)
  · intro nd hget hdeps hkind
    simp only [findQuest, hget] at hok
    rw [if_pos hdeps, hkind] at hok
    simp [nameAttr, hdeps, findQuestLoop] at hok
    exact hok.symm

/-- Witness for C9 on a concrete chain store: searching "B" from the root
finds the strict descendant 2. -/
theorem c9_witness :
    (some 2 = (none : Option Nat) ∨ ∃ d nd, (some 2 : Option Nat) = some d ∧
      chainStore.get d = some nd ∧ nd.kind = .quest "B" ∧
      Relation.TransGen (childRel chainStore) 0 d) :=
  (c9_find_quest_strict_descendant 10 chainStore 0 "B" (some 2) rfl).1

/-! ### Claim about the recursive fetch-and-merge (C1) -/

/-- The self-reference scenario: the quest database knows one quest `A`, and
the quick-guide page of `A` holds one `Quest details` template whose
`requirements` value is the single line `*[[A]]` — a quest that references
itself. -/
def envSelfRef : Env :=
  fun n => if n = "A" then some [⟨true, some "*[[A]]"⟩] else none

/-- The store invariant threaded through the self-reference divergence proof:
every id found in any dependency list is allocated, ids at or above `next`
are unallocated, and the base node is allocated with a `name` attribute (it
is a quest or skill node). -/
def FetchInv (s : Store) (baseId : Nat) : Prop :=
  (∀ i nd, s.get i = some nd → ∀ j ∈ nd.deps, ∃ m, s.get j = some m) ∧
  (∀ i, s.next ≤ i → s.get i = none) ∧
  (∃ nd, s.get baseId = some nd ∧ nameAttr nd.kind ≠ none)

/-- On a deps-closed store with an allocated queue, the `find_quest` walk
either runs out of fuel, finds nothing, or finds an allocated node — it never
crashes. -/
theorem findQuestLoop_closed (name : String) : ∀ (fuel : Nat) (s : Store) (q : List Nat),
    (∀ i nd, s.get i = some nd → ∀ j ∈ nd.deps, ∃ m, s.get j = some m) →
    (∀ x ∈ q, ∃ nd, s.get x = some nd) →
    findQuestLoop fuel s name q = none ∨
    findQuestLoop fuel s name q = some (.ok none) ∨
    ∃ d nd, findQuestLoop fuel s name q = some (.ok (some d)) ∧ s.get d = some nd := by
  intro fuel
  induction fuel with
  | zero =>
    intro s q hc hq
    cases q with
    | nil => exact Or.inr (Or.inl rfl)
    | cons d rest => exact Or.inl rfl
  | succ fuel ih =>
    intro s q hc hq
    cases q with
    | nil => exact Or.inr (Or.inl rfl)
    | cons d rest =>
      obtain ⟨nd, hget⟩ := hq d (by simp)
      by_cases hkind : nd.kind = .quest name
      · exact Or.inr (Or.inr ⟨d, nd, by simp [findQuestLoop, hget, hkind], hget⟩)
      · have hstep : findQuestLoop (fuel + 1) s name (d :: rest)
            = findQuestLoop fuel s name (rest ++ nd.deps) := by
          simp [findQuestLoop, hget, hkind]
        rw [hstep]
        refine ih s (rest ++ nd.deps) hc ?_
        intro x hx
        rcases List.mem_append.mp hx with hx | hx
        · exact hq x (by simp [hx])
        · exact hc d nd hget x hx

/-- `find_quest` on a deps-closed store whose root is allocated with a `name`
attribute never crashes, and a found node is allocated. -/
theorem findQuest_closed (fuel : Nat) (s : Store) (rootId : Nat) (name : String)
    (hc : ∀ i nd, s.get i = some nd → ∀ j ∈ nd.deps, ∃ m, s.get j = some m)
    (hroot : ∃ nd, s.get rootId = some nd ∧ nameAttr nd.kind ≠ none) :
    findQuest fuel s rootId name = none ∨
    findQuest fuel s rootId name = some (.ok none) ∨
    ∃ d nd, findQuest fuel s rootId name = some (.ok (some d)) ∧ s.get d = some nd := by
  obtain ⟨nd, hget, hnm⟩ := hroot
  have hq : ∀ x ∈ nd.deps, ∃ m, s.get x = some m := hc rootId nd hget
  by_cases hdeps : nd.deps = []
  · cases hname : nameAttr nd.kind with
    | none => exact absurd hname hnm
    | some nm =>
      by_cases hne : nm ≠ name
      · exact Or.inr (Or.inl (by simp [findQuest, hget, hdeps, hname, hne]))
      · have : findQuest fuel s rootId name = findQuestLoop fuel s name nd.deps := by
          simp [findQuest, hget, hdeps, hname, hne]
        rw [this]
        exact findQuestLoop_closed name fuel s nd.deps hc hq
  · have : findQuest fuel s rootId name = findQuestLoop fuel s name nd.deps := by
      simp [findQuest, hget, hdeps]
    rw [this]
    exact findQuestLoop_closed name fuel s nd.deps hc hq

/-- Evaluating the line loop on the single self-reference line `*[[A]]`:
one fresh `QuestRequirement("A")` is attached under the anchored root and
`A` is scheduled for fetching. -/
theorem parseLines_selfref (qe : String → Bool) (fetched : List String)
    (anchor root : Nat) (s : Store) (nr : Node)
    (hroot : s.get root = some nr) (hbound : ∀ i, s.next ≤ i → s.get i = none)
    (hqe : qe "A" = true) (hnf : "A" ∉ fetched) :
    parseLines qe fetched anchor ["*[[A]]"] ⟨s, some root, none, 0, []⟩
      = .ok ⟨((s.alloc (.quest "A")).2.set root
            { nr with deps := nr.deps ++ [s.next] }).set s.next ⟨.quest "A", some root, []⟩,
          some root, some s.next, 0, ["A"]⟩ := by
  have hrn : root < s.next := by
    by_contra hcon
    push_neg at hcon
    rw [hbound root hcon] at hroot
    cases hroot
  have hne : root ≠ s.next := Nat.ne_of_lt hrn
  simp +decide [parseLines, parseLine, levelAdjust, ascend, attachFresh, hqe, hnf, addName,
    addDependency, Store.alloc, Store.set, hroot, hne, Ne.symm hne, splitChar, chReplace,
    chReplaceGo, parseInt?, pyStrip, listIsPre, occursIn, linkScanGo, findLinks]

/-- Attaching a freshly allocated node under an allocated root preserves
`FetchInv`. -/
theorem fetchInv_attach (s : Store) (root baseId : Nat) (nr : Node) (k : ReqKind)
    (hroot : s.get root = some nr) (hinv : FetchInv s baseId) :
    FetchInv (((s.alloc k).2.set root
      { nr with deps := nr.deps ++ [s.next] }).set s.next ⟨k, some root, []⟩) baseId := by
  obtain ⟨hc, hb, nb, hnb, hnm⟩ := hinv
  have hrn : root < s.next := by
    by_contra hcon
    push_neg at hcon
    rw [hb root hcon] at hroot
    cases hroot
  have hbn : baseId < s.next := by
    by_contra hcon
    push_neg at hcon
    rw [hb baseId hcon] at hnb
    cases hnb
  have hget2 : ∀ j, (((s.alloc k).2.set root
      { nr with deps := nr.deps ++ [s.next] }).set s.next ⟨k, some root, []⟩).get j
      = if j = s.next then some ⟨k, some root, []⟩
        else if j = root then some { nr with deps := nr.deps ++ [s.next] }
        else s.get j := by
    intro j
    by_cases h1 : j = s.next
    · simp [Store.set, Store.alloc, h1]
    · by_cases h2 : j = root
      · simp [Store.set, Store.alloc, h1, h2]
      · simp [Store.set, Store.alloc, h1, h2]
  have hpres : ∀ j, (∃ m, s.get j = some m) →
      ∃ m2, (((s.alloc k).2.set root
        { nr with deps := nr.deps ++ [s.next] }).set s.next ⟨k, some root, []⟩).get j = some m2 := by
    intro j hm
    obtain ⟨m, hm⟩ := hm
    rw [hget2]
    by_cases h1 : j = s.next
    · exact ⟨_, by rw [if_pos h1]⟩
    · rw [if_neg h1]
      by_cases h2 : j = root
      · exact ⟨_, by rw [if_pos h2]⟩
      · rw [if_neg h2]
        exact ⟨m, hm⟩
  refine ⟨?_, ?_, ?_⟩
  · intro i ni hi j hj
    rw [hget2] at hi
    by_cases h1 : i = s.next
    · rw [if_pos h1] at hi
      cases hi
      simp at hj
    · rw [if_neg h1] at hi
      by_cases h2 : i = root
      · rw [if_pos h2] at hi
        cases hi
        simp only [List.mem_append, List.mem_singleton] at hj
        rcases hj with hj | hj
        · exact hpres j (hc root nr hroot j hj)
        · subst hj
          exact ⟨_, by rw [hget2, if_pos rfl]⟩
      · rw [if_neg h2] at hi
        exact hpres j (hc i ni hi j hj)
  · intro i hi
    have hi2 : s.next + 1 ≤ i := hi
    rw [hget2, if_neg (by omega), if_neg (by omega)]
    exact hb i (by omega)
  · refine ⟨if baseId = root then { nr with deps := nr.deps ++ [s.next] } else nb, ?_, ?_⟩
    · rw [hget2, if_neg (by omega)]
      by_cases h2 : baseId = root
      · simp [h2]
      · simp [h2, hnb]
    · by_cases h2 : baseId = root
      · subst h2
        rw [hroot] at hnb
        cases hnb
        simpa using hnm
      · simpa [h2] using hnm

/-- The divergence induction: with `A` not yet in the visited-set, the merge
of quest `A` against `envSelfRef` consumes every amount of fuel — each level
re-discovers `A` (line 340 checks the visited-set at discovery time, but line
356 only adds `A` after the recursive merge returns, so the set is still
empty) and recurses. -/
theorem selfRefAux : ∀ (fuel : Nat) (s : Store) (baseId : Nat) (fetched : List String),
    FetchInv s baseId → "A" ∉ fetched →
    getQuestRequirementsAndMerge fuel envSelfRef (fun n => n == "A") "A" baseId s fetched
      = none := by
  intro fuel
  induction fuel with
  | zero => intro s baseId fetched _ _; rfl
  | succ fuel ih =>
    intro s baseId fetched hinv hnf
    have hstep : getQuestRequirementsAndMerge (fuel + 1) envSelfRef
        (fun n => n == "A") "A" baseId s fetched
        = parseRequirementsG
            (fun q b st f =>
              getQuestRequirementsAndMerge fuel envSelfRef (fun n => n == "A") q b st f)
            fuel (fun n => n == "A") "A" "*[[A]]" baseId s fetched := by
      simp +decide [getQuestRequirementsAndMerge, envSelfRef]
    rw [hstep]
    obtain ⟨hc, hb, nb, hnb, hnm⟩ := hinv
    have hl : (splitChar '\n' (pyStrip "*[[A]]".data)).map String.mk = ["*[[A]]"] := by decide
    have tail : ∀ (root : Nat) (nr : Node), s.get root = some nr →
        ((match parseLines (fun n => n == "A") fetched baseId ["*[[A]]"]
            ⟨s, some root, none, 0, []⟩ with
        | .error e => some (.error e)
        | .ok st =>
          match fetchLoopG
              (fun q b st2 f =>
                getQuestRequirementsAndMerge fuel envSelfRef (fun n => n == "A") q b st2 f)
              (sortStrings st.toFetch) baseId st.s fetched with
          | none => none
          | some (.error e) => some (.error e)
          | some (.ok (s2, fetched2)) =>
            match removeEmptyRequirements fuel s2 (some root) with
            | none => none
            | some (.error e) => some (.error e)
            | some (.ok s3) => some (.ok (root, s3, fetched2))) :
          Option (Except PErr (Nat × Store × List String))) = none := by
      intro root nr hroot
      rw [parseLines_selfref (fun n => n == "A") fetched baseId root s nr hroot hb
        (by decide) hnf]
      have hrecur : getQuestRequirementsAndMerge fuel envSelfRef (fun n => n == "A") "A"
          baseId (((s.alloc (.quest "A")).2.set root
            { nr with deps := nr.deps ++ [s.next] }).set s.next ⟨.quest "A", some root, []⟩)
          fetched = none :=
        ih _ baseId fetched (fetchInv_attach s root baseId nr (.quest "A") hroot
          ⟨hc, hb, nb, hnb, hnm⟩) hnf
      simp only [sortStrings, List.foldr, insertSortedStr, fetchLoopG, hrecur]
    rcases findQuest_closed fuel s baseId "A" hc ⟨nb, hnb, hnm⟩ with hfq | hfq | hfq
    · simp [parseRequirementsG, hfq]
    · simp only [parseRequirementsG, hfq, hl, Option.getD]
      exact tail baseId nb hnb
    · obtain ⟨d, ndd, hfq, hgetd⟩ := hfq
      simp only [parseRequirementsG, hfq, hl, Option.getD]
      exact tail d ndd hgetd

/-- C1 (refuting the claimed mechanism; the code is the bug): a quest that
references itself causes infinite recursion in `get_quest_requirements`.
Each discovered quest name is added to the visited-set only *after* its whole
subtree is merged (line 356), not at discovery time, so the self-reference
`A → [[A]]` is re-scheduled at every level and the recursion never
terminates: for every fuel bound the modelled run is still unfinished
(`none`), never a result and never an exception. -/
theorem c1_selfref_infinite_recursion : ∀ fuel : Nat,
    getQuestRequirements fuel envSelfRef (fun n => n == "A") "A" = none := by
  intro fuel
  have hinv : FetchInv ((⟨fun _ => none, 0⟩ : Store).alloc (.quest "A")).2 0 := by
    refine ⟨?_, ?_, ?_⟩
    · intro i nd hi j hj
      by_cases h0 : i = 0
      · subst h0
        simp [Store.alloc] at hi
        rw [← hi] at hj
        simp at hj
      · simp [Store.alloc, h0] at hi
    · intro i hi
      have h0 : i ≠ 0 := by
        simp [Store.alloc] at hi
        omega
      simp [Store.alloc, h0]
    · exact ⟨⟨.quest "A", none, []⟩, by simp [Store.alloc], by simp [nameAttr]⟩
  have h := selfRefAux fuel _ 0 [] hinv (by simp)
  simp only [getQuestRequirements]
  rw [show ((⟨fun _ => none, 0⟩ : Store).alloc (ReqKind.quest "A")).1 = 0 from rfl, h]

/-! ### Claims about the serializer and the fetch entry -/

/-- C8: for every tree whose root has no dependencies, `build_dot_repr`
returns exactly the root's quoted label — no `digraph` wrapper, no node-style
lines, no edges. -/
theorem c8_childless_root_serialization (fuel : Nat) (s : Store) (rootId : Nat)
    (nd : Node) (l : String) (hget : s.get rootId = some nd)
    (hdeps : nd.deps = []) (hl : dotRepr nd.kind = some l) :
    buildDotRepr fuel s rootId = some (.ok l) := by
  simp [buildDotRepr, hget, hdeps, hl]

/-- Witness for C8: a lone quest root serializes to its quoted name. -/
theorem c8_witness : buildDotRepr 5 rootOnlyStore 0 = some (.ok "\"Root\"") :=
  c8_childless_root_serialization 5 rootOnlyStore 0 ⟨.quest "Root", none, []⟩
    "\"Root\"" rfl rfl rfl

/-- C10: when the fetched page has exactly one `Quest details` template but no
`requirements` parameter, `get_quest_requirements_and_merge` raises no error:
it adds the quest name to the visited-set and returns a freshly constructed
`QuestRequirement` with no dependencies and no parent, leaving every existing
node of the passed-in tree unmodified. -/
theorem c10_missing_requirements_field (fuel : Nat) (env : Env)
    (qe : String → Bool) (name : String) (baseId : Nat) (s : Store)
    (fetched : List String) (page : List MTemplate) (t : MTemplate)
    (hpage : env name = some page)
    (hfilter : page.filter (fun tp => tp.isQuestDetails) = [t])
    (hreq : t.requirementsParam = none) :
    getQuestRequirementsAndMerge (fuel + 1) env qe name baseId s fetched
      = some (.ok (s.next, (s.alloc (.quest name)).2, addName name fetched)) ∧
    ((s.alloc (.quest name)).2).get s.next = some ⟨.quest name, none, []⟩ ∧
    (∀ j, j ≠ s.next → ((s.alloc (.quest name)).2).get j = s.get j) ∧
    name ∈ addName name fetched := by
  refine ⟨?_, ?_, fun j hj => ?_, ?_⟩
  · simp [getQuestRequirementsAndMerge, hpage, hfilter, hreq, Store.alloc]
  · simp [Store.alloc]
  · simp [Store.alloc, hj]
  · by_cases hmem : name ∈ fetched <;> simp [addName, hmem]

/-- Witness for C10 at a concrete page and store. -/
theorem c10_witness :
    getQuestRequirementsAndMerge 3 envNoReqField (fun _ => false) "B" 0
        rootOnlyStore []
      = some (.ok (rootOnlyStore.next, (rootOnlyStore.alloc (.quest "B")).2,
          addName "B" [])) ∧
    ((rootOnlyStore.alloc (.quest "B")).2).get rootOnlyStore.next
      = some ⟨.quest "B", none, []⟩ ∧
    (∀ j, j ≠ rootOnlyStore.next →
      ((rootOnlyStore.alloc (.quest "B")).2).get j = rootOnlyStore.get j) ∧
    "B" ∈ addName "B" [] :=
  c10_missing_requirements_field 2 envNoReqField (fun _ => false) "B" 0
    rootOnlyStore [] [⟨true, none⟩] ⟨true, none⟩ rfl rfl rfl

/-! ### Tree decoration of the heap (for `remove_empty_requirements`)

An `IdT` is a finite tree of object ids; `Deco s T` says the store realizes
exactly that tree through `dependencies` lists and `parent` back-pointers.
`IdT.pluck` is the tree-side image of one removal step of
`remove_empty_requirements`, and `IdT.graft` the image of attaching a freshly
allocated child with `Requirement.add_dependency`. -/

/-- A finite tree of node ids. -/
inductive IdT where
  | node (id : Nat) (kids : List IdT)

def IdT.rootId : IdT → Nat
  | node i _ => i

def IdT.kids : IdT → List IdT
  | node _ ks => ks

mutual
def IdT.ids : IdT → List Nat
  | .node i ks => i :: IdT.idsList ks
def IdT.idsList : List IdT → List Nat
  | [] => []
  | t :: ts => t.ids ++ IdT.idsList ts
end

/-- Strong induction over id-trees. -/
theorem IdT.strongInduction {motive : IdT → Prop}
    (h : ∀ i ks, (∀ k ∈ ks, motive k) → motive (IdT.node i ks)) (t : IdT) : motive t := by
  suffices H : ∀ (n : Nat) (t : IdT), sizeOf t ≤ n → motive t from H (sizeOf t) t le_rfl
  intro n
  induction n with
  | zero =>
    intro t ht
    cases t with
    | node i ks =>
      simp only [IdT.node.sizeOf_spec] at ht
      omega
  | succ n ih =>
    intro t ht
    cases t with
    | node i ks =>
      refine h i ks (fun k hk => ih k ?_)
      have hlt := List.sizeOf_lt_of_mem hk
      simp only [IdT.node.sizeOf_spec] at ht
      omega

/-- `a` is a subtree of `t`. -/
inductive SubT : IdT → IdT → Prop where
  | refl (t : IdT) : SubT t t
  | kid {a k : IdT} {i : Nat} {ks : List IdT} : k ∈ ks → SubT a k → SubT a (IdT.node i ks)

theorem SubT.trans {a b c : IdT} (hab : SubT a b) (hbc : SubT b c) : SubT a c := by
  induction hbc with
  | refl => exact hab
  | kid hk _ ih => exact SubT.kid hk ih

theorem mem_idsList {ts : List IdT} {y : Nat} :
    y ∈ IdT.idsList ts ↔ ∃ k ∈ ts, y ∈ k.ids := by
  induction ts with
  | nil => simp [IdT.idsList]
  | cons t ts ih => simp [IdT.idsList, ih]

theorem SubT.ids_subset {a t : IdT} (h : SubT a t) : ∀ y ∈ a.ids, y ∈ t.ids := by
  induction h with
  | refl => exact fun y hy => hy
  | kid hk _ ih =>
    intro y hy
    simp only [IdT.ids, List.mem_cons]
    exact Or.inr (mem_idsList.mpr ⟨_, hk, ih y hy⟩)

theorem IdT.rootId_mem_ids (t : IdT) : t.rootId ∈ t.ids := by
  cases t with
  | node i ks => simp [IdT.ids, IdT.rootId]

/-- There is a subtree rooted at every id of the tree. -/
theorem subtree_at {t : IdT} {y : Nat} (hy : y ∈ t.ids) :
    ∃ a, SubT a t ∧ a.rootId = y := by
  induction t using IdT.strongInduction with
  | h i ks ih =>
    simp only [IdT.ids, List.mem_cons] at hy
    rcases hy with hy | hy
    · exact ⟨IdT.node i ks, SubT.refl _, hy.symm⟩
    · obtain ⟨k, hk, hyk⟩ := mem_idsList.mp hy
      obtain ⟨a, ha, har⟩ := ih k hk hyk
      exact ⟨a, SubT.kid hk ha, har⟩

/-- The store decorates the id-tree: each tree node is allocated, its
`dependencies` list is exactly its kids' roots in order, and each kid's
`parent` points back. -/
inductive Deco (s : Store) : IdT → Prop where
  | node {i : Nat} {ks : List IdT} {nd : Node}
      (hget : s.get i = some nd)
      (hdeps : nd.deps = ks.map IdT.rootId)
      (hpar : ∀ k ∈ ks, s.parentAt k.rootId = some i)
      (hkids : ∀ k ∈ ks, Deco s k) :
      Deco s (IdT.node i ks)

theorem Deco.sub {s : Store} {a t : IdT} (hd : Deco s t) (hsub : SubT a t) :
    Deco s a := by
  induction hsub with
  | refl => exact hd
  | kid hk _ ih =>
    cases hd with
    | node hget hdeps hpar hkids => exact ih (hkids _ hk)

theorem Deco.present {s : Store} {t : IdT} (hd : Deco s t) :
    ∃ nd, s.get t.rootId = some nd := by
  cases hd with
  | node hget _ _ _ => exact ⟨_, hget⟩

theorem Deco.depsAt_eq {s : Store} {i : Nat} {ks : List IdT}
    (hd : Deco s (IdT.node i ks)) : s.depsAt i = ks.map IdT.rootId := by
  cases hd with
  | node hget hdeps _ _ => simp [Store.depsAt, hget, hdeps]

theorem nodup_ids_head {i : Nat} {ks : List IdT}
    (h : (IdT.node i ks).ids.Nodup) : i ∉ IdT.idsList ks ∧ (IdT.idsList ks).Nodup := by
  simp only [IdT.ids, List.nodup_cons] at h
  exact h

theorem nodup_idsList_mem {ks : List IdT} {k : IdT}
    (h : (IdT.idsList ks).Nodup) (hk : k ∈ ks) : k.ids.Nodup := by
  induction ks with
  | nil => cases hk
  | cons t ts ih =>
    simp only [IdT.idsList] at h
    rcases List.mem_cons.mp hk with he | hm
    · exact he ▸ h.of_append_left
    · exact ih h.of_append_right hm

/-- In a duplicate-free forest the trees' id sets are pairwise disjoint: an
id occurring in two member trees forces them to be the same member. -/
theorem idsList_disjoint {ks : List IdT} {k x : IdT} {y : Nat}
    (h : (IdT.idsList ks).Nodup) (hk : k ∈ ks) (hx : x ∈ ks)
    (hyk : y ∈ k.ids) (hyx : y ∈ x.ids) : x = k := by
  induction ks with
  | nil => cases hk
  | cons t ts ih =>
    simp only [IdT.idsList] at h
    have hdisj := List.disjoint_of_nodup_append h
    rcases List.mem_cons.mp hk with hek | hmk <;> rcases List.mem_cons.mp hx with hex | hmx
    · rw [hek, hex]
    · exfalso
      exact hdisj (hek ▸ hyk) (mem_idsList.mpr ⟨x, hmx, hyx⟩)
    · exfalso
      exact hdisj (hex ▸ hyx) (mem_idsList.mpr ⟨k, hmk, hyk⟩)
    · exact ih h.of_append_right hmk hmx

theorem nodup_root_notin_kid {i : Nat} {ks : List IdT} {k : IdT}
    (h : (IdT.node i ks).ids.Nodup) (hk : k ∈ ks) : i ∉ k.ids := by
  intro hmem
  exact (nodup_ids_head h).1 (mem_idsList.mpr ⟨k, hk, hmem⟩)

theorem mem_kid_ne_root {i : Nat} {ks : List IdT} {z : Nat} {k : IdT}
    (h : (IdT.node i ks).ids.Nodup) (hk : k ∈ ks) (hz : z ∈ k.ids) : z ≠ i := by
  intro he
  exact nodup_root_notin_kid h hk (he ▸ hz)

/-- Decoration congruence: records may change only in the parent field of the
decorated tree's root. -/
theorem Deco.congr {s s2 : Store} {t : IdT} (hd : Deco s t)
    (hnodup : t.ids.Nodup)
    (hagree : ∀ z ∈ t.ids, ∃ n n2, s.get z = some n ∧ s2.get z = some n2 ∧
      n2.deps = n.deps ∧ (z ≠ t.rootId → n2.parent = n.parent)) :
    Deco s2 t := by
  induction t using IdT.strongInduction with
  | h i ks ih =>
    cases hd with
    | node hget hdeps hpar hkids =>
      obtain ⟨n, n2, hn, hn2, hdeps2, _⟩ := hagree i (by simp [IdT.ids])
      rw [hget] at hn
      cases hn
      refine Deco.node hn2 (by rw [hdeps2, hdeps]) ?_ ?_
      · intro k hk
        have hkr : k.rootId ∈ (IdT.node i ks).ids :=
          SubT.ids_subset (SubT.kid hk (SubT.refl k)) _ k.rootId_mem_ids
        obtain ⟨m, m2, hm, hm2, _, hmp⟩ := hagree k.rootId hkr
        have hne : k.rootId ≠ (IdT.node i ks).rootId :=
          mem_kid_ne_root hnodup hk k.rootId_mem_ids
        have hp1 := hpar k hk
        simp only [Store.parentAt, hm, Option.some_bind] at hp1
        simp [Store.parentAt, hm2, hmp hne, hp1]
      · intro k hk
        refine ih k hk (hkids k hk)
          (nodup_idsList_mem (nodup_ids_head hnodup).2 hk) ?_
        intro z hz
        obtain ⟨n', n2', h1, h2, h3, _⟩ :=
          hagree z (SubT.ids_subset (SubT.kid hk (SubT.refl k)) _ hz)
        have hzi : z ≠ (IdT.node i ks).rootId := mem_kid_ne_root hnodup hk hz
        obtain ⟨n'', n2'', h1', h2', h3', h4'⟩ := hagree z
          (SubT.ids_subset (SubT.kid hk (SubT.refl k)) _ hz)
        exact ⟨n'', n2'', h1', h2', h3', fun _ => h4' hzi⟩

/-- Drop the first member tree whose root is `d` (the tree-side image of
Python's `list.remove`). -/
def removeFirstD (d : Nat) : List IdT → List IdT
  | [] => []
  | t :: ts => if t.rootId = d then ts else t :: removeFirstD d ts

/-- The kids of the first member tree whose root is `d`. -/
def kidsOfFirst (d : Nat) : List IdT → List IdT
  | [] => []
  | t :: ts => if t.rootId = d then t.kids else kidsOfFirst d ts

mutual
/-- Remove the node `d` from the tree, splicing its kids to the end of its
parent's kid list — the tree-side image of one `remove_empty_requirements`
removal step. -/
def IdT.pluck (d : Nat) : IdT → IdT
  | .node i ks =>
    if ks.any (fun k => k.rootId == d) then
      .node i (removeFirstD d ks ++ kidsOfFirst d ks)
    else .node i (IdT.pluckList d ks)
def IdT.pluckList (d : Nat) : List IdT → List IdT
  | [] => []
  | t :: ts => IdT.pluck d t :: IdT.pluckList d ts
end

theorem IdT.pluck_rootId (d : Nat) (t : IdT) : (t.pluck d).rootId = t.rootId := by
  cases t with
  | node i ks =>
    unfold IdT.pluck
    split <;> rfl

theorem idsList_append (xs ys : List IdT) :
    IdT.idsList (xs ++ ys) = IdT.idsList xs ++ IdT.idsList ys := by
  induction xs with
  | nil => simp [IdT.idsList]
  | cons t ts ih => simp [IdT.idsList, ih]

theorem pluckList_congr {d : Nat} : ∀ ks : List IdT,
    (∀ k ∈ ks, IdT.pluck d k = k) → IdT.pluckList d ks = ks := by
  intro ks h
  induction ks with
  | nil => rfl
  | cons t ts ih =>
    show IdT.pluck d t :: IdT.pluckList d ts = t :: ts
    rw [h t (by simp), ih (fun k hk => h k (by simp [hk]))]

theorem IdT.pluck_noop {d : Nat} {t : IdT} (h : d ∉ t.ids) : t.pluck d = t := by
  induction t using IdT.strongInduction with
  | h i ks ih =>
    have hmem : ∀ k ∈ ks, d ∉ k.ids := by
      intro k hk hdk
      exact h (SubT.ids_subset (SubT.kid hk (SubT.refl k)) _ hdk)
    have hany : ks.any (fun k => k.rootId == d) = false := by
      rw [List.any_eq_false]
      intro k hk
      simp only [beq_iff_eq]
      intro he
      exact hmem k hk (he ▸ k.rootId_mem_ids)
    have hlist : IdT.pluckList d ks = ks :=
      pluckList_congr ks (fun k hk => ih k hk (hmem k hk))
    simp [IdT.pluck, hany, hlist]

theorem map_rootId_removeFirstD (d : Nat) : ∀ ks : List IdT,
    (removeFirstD d ks).map IdT.rootId = (ks.map IdT.rootId).erase d := by
  intro ks
  induction ks with
  | nil => rfl
  | cons t ts ih =>
    show (if t.rootId = d then ts else t :: removeFirstD d ts).map IdT.rootId
        = (t.rootId :: ts.map IdT.rootId).erase d
    by_cases h : t.rootId = d
    · rw [if_pos h, h, List.erase_cons_head]
    · rw [if_neg h, List.erase_cons_tail (by simpa using h)]
      simp [ih]

theorem kidsOfFirst_eq {d : Nat} : ∀ {ks : List IdT} {k : IdT},
    (IdT.idsList ks).Nodup → k ∈ ks → k.rootId = d → kidsOfFirst d ks = k.kids := by
  intro ks
  induction ks with
  | nil => intro k _ hk _; cases hk
  | cons t ts ih =>
    intro k hn hk hr
    show (if t.rootId = d then t.kids else kidsOfFirst d ts) = k.kids
    have hn2 : (t.ids ++ IdT.idsList ts).Nodup := by simpa [IdT.idsList] using hn
    rcases List.mem_cons.mp hk with he | hm
    · subst he
      rw [if_pos hr]
    · by_cases h : t.rootId = d
      · have h1 : d ∈ t.ids := h ▸ t.rootId_mem_ids
        have h2 : d ∈ k.ids := hr ▸ k.rootId_mem_ids
        exact ((List.disjoint_of_nodup_append hn2) h1
          (mem_idsList.mpr ⟨k, hm, h2⟩)).elim
      · rw [if_neg h]
        exact ih hn2.of_append_right hm hr

theorem idsList_perm_removeFirstD {d : Nat} : ∀ {ks : List IdT} {k : IdT},
    (IdT.idsList ks).Nodup → k ∈ ks → k.rootId = d →
    List.Perm (IdT.idsList ks) (k.ids ++ IdT.idsList (removeFirstD d ks)) := by
  intro ks
  induction ks with
  | nil => intro k _ hk _; cases hk
  | cons t ts ih =>
    intro k hn hk hr
    have hn2 : (t.ids ++ IdT.idsList ts).Nodup := by simpa [IdT.idsList] using hn
    have heq : IdT.idsList (t :: ts) = t.ids ++ IdT.idsList ts := rfl
    rcases List.mem_cons.mp hk with he | hm
    · subst he
      rw [heq, show removeFirstD d (k :: ts) = ts from by simp [removeFirstD, hr]]
    · by_cases h : t.rootId = d
      · have h1 : d ∈ t.ids := h ▸ t.rootId_mem_ids
        have h2 : d ∈ k.ids := hr ▸ k.rootId_mem_ids
        exact ((List.disjoint_of_nodup_append hn2) h1
          (mem_idsList.mpr ⟨k, hm, h2⟩)).elim
      · have hstep : removeFirstD d (t :: ts) = t :: removeFirstD d ts := by
          simp [removeFirstD, h]
        rw [heq, hstep]
        have p1 : List.Perm (t.ids ++ IdT.idsList ts)
            (t.ids ++ (k.ids ++ IdT.idsList (removeFirstD d ts))) :=
          List.Perm.append_left _ (ih hn2.of_append_right hm hr)
        have p2 : List.Perm ((t.ids ++ k.ids) ++ IdT.idsList (removeFirstD d ts))
            ((k.ids ++ t.ids) ++ IdT.idsList (removeFirstD d ts)) :=
          List.Perm.append_right _ List.perm_append_comm
        refine p1.trans ?_
        rw [← List.append_assoc]
        refine p2.trans ?_
        rw [List.append_assoc]
        exact List.Perm.refl _

theorem pluck_eq_pos {d i : Nat} {ks : List IdT}
    (hany : ks.any (fun k => k.rootId == d) = true) :
    IdT.pluck d (IdT.node i ks) = IdT.node i (removeFirstD d ks ++ kidsOfFirst d ks) := by
  unfold IdT.pluck
  rw [if_pos hany]

theorem pluck_eq_neg {d i : Nat} {ks : List IdT}
    (hany : ¬ ks.any (fun k => k.rootId == d) = true) :
    IdT.pluck d (IdT.node i ks) = IdT.node i (IdT.pluckList d ks) := by
  unfold IdT.pluck
  rw [if_neg hany]

theorem idsList_pluckList_perm {d : Nat} : ∀ {ks : List IdT} {kd : IdT},
    (IdT.idsList ks).Nodup → kd ∈ ks → d ∈ kd.ids →
    List.Perm (IdT.pluck d kd).ids (kd.ids.erase d) →
    List.Perm (IdT.idsList (IdT.pluckList d ks)) ((IdT.idsList ks).erase d) := by
  intro ks
  induction ks with
  | nil => intro kd _ hk _ _; cases hk
  | cons t ts ih =>
    intro kd hn hk hd hperm
    have hn2 : (t.ids ++ IdT.idsList ts).Nodup := by simpa [IdT.idsList] using hn
    have hdisj := List.disjoint_of_nodup_append hn2
    have heqL : IdT.idsList (IdT.pluckList d (t :: ts))
        = (IdT.pluck d t).ids ++ IdT.idsList (IdT.pluckList d ts) := rfl
    have heqR : IdT.idsList (t :: ts) = t.ids ++ IdT.idsList ts := rfl
    by_cases hdt : d ∈ t.ids
    · have htkd : t = kd := by
        rcases List.mem_cons.mp hk with he | hm
        · exact he.symm
        · exact (hdisj hdt (mem_idsList.mpr ⟨kd, hm, hd⟩)).elim
      subst htkd
      have hnoop : IdT.pluckList d ts = ts := by
        refine pluckList_congr ts (fun x hx => IdT.pluck_noop ?_)
        intro hdx
        exact hdisj hdt (mem_idsList.mpr ⟨x, hx, hdx⟩)
      rw [heqL, heqR, hnoop, List.erase_append_left _ hdt]
      exact List.Perm.append_right _ hperm
    · have hm : kd ∈ ts := by
        rcases List.mem_cons.mp hk with he | hm
        · exact (hdt (he ▸ hd)).elim
        · exact hm
      have hnoop : IdT.pluck d t = t := IdT.pluck_noop hdt
      rw [heqL, heqR, hnoop, List.erase_append_right _ hdt]
      exact List.Perm.append_left _ (ih hn2.of_append_right hm hd hperm)

theorem ids_pluck {d : Nat} : ∀ {t : IdT}, d ∈ t.ids → d ≠ t.rootId → t.ids.Nodup →
    List.Perm (t.pluck d).ids (t.ids.erase d) := by
  intro t
  induction t using IdT.strongInduction with
  | h i ks ih =>
    intro hd hne hnodup
    have hnl : (IdT.idsList ks).Nodup := (nodup_ids_head hnodup).2
    have hnei : d ≠ i := by simpa [IdT.rootId] using hne
    have hdl : d ∈ IdT.idsList ks := by
      rcases List.mem_cons.mp (show d ∈ i :: IdT.idsList ks from hd) with he | hm
      · exact (hnei he).elim
      · exact hm
    have herase : (IdT.node i ks).ids.erase d = i :: (IdT.idsList ks).erase d := by
      show (i :: IdT.idsList ks).erase d = _
      rw [List.erase_cons_tail (by simpa using Ne.symm hnei)]
    by_cases hany : ks.any (fun k => k.rootId == d) = true
    · obtain ⟨k, hk, hkr⟩ := List.any_eq_true.mp hany
      have hkr2 : k.rootId = d := by simpa using hkr
      rw [pluck_eq_pos hany, kidsOfFirst_eq hnl hk hkr2]
      have hkid : k.ids = d :: IdT.idsList k.kids := by
        cases k with
        | node r kks =>
          have : r = d := by simpa [IdT.rootId] using hkr2
          simp [IdT.ids, IdT.kids, this]
      have hsplit : (k.ids ++ IdT.idsList (removeFirstD d ks)).erase d
          = IdT.idsList k.kids ++ IdT.idsList (removeFirstD d ks) := by
        rw [List.erase_append_left _ (by rw [hkid]; exact List.mem_cons_self _ _), hkid,
          List.erase_cons_head]
      have hp2 := (idsList_perm_removeFirstD hnl hk hkr2).erase d
      rw [hsplit] at hp2
      show List.Perm (i :: IdT.idsList (removeFirstD d ks ++ k.kids)) _
      rw [herase, idsList_append]
      refine List.Perm.cons i ?_
      exact List.perm_append_comm.trans hp2.symm
    · obtain ⟨kd, hkd, hdk⟩ := mem_idsList.mp hdl
      have hdkr : d ≠ kd.rootId := by
        intro he
        rw [List.any_eq_true] at hany
        exact hany ⟨kd, hkd, by simpa using he.symm⟩
      have hperm := ih kd hkd hdk hdkr (nodup_idsList_mem hnl hkd)
      rw [pluck_eq_neg hany, herase]
      show List.Perm (i :: IdT.idsList (IdT.pluckList d ks)) _
      exact List.Perm.cons i (idsList_pluckList_perm hnl hkd hdk hperm)

theorem nodup_ids_pluck {d : Nat} {t : IdT} (hd : d ∈ t.ids) (hne : d ≠ t.rootId)
    (hn : t.ids.Nodup) : (t.pluck d).ids.Nodup :=
  ((ids_pluck hd hne hn).nodup_iff).mpr (hn.erase d)

theorem mem_ids_pluck {d x : Nat} {t : IdT} (hd : d ∈ t.ids) (hne : d ≠ t.rootId)
    (hn : t.ids.Nodup) : x ∈ (t.pluck d).ids ↔ x ≠ d ∧ x ∈ t.ids := by
  rw [(ids_pluck hd hne hn).mem_iff, hn.mem_erase_iff]

theorem pluckList_eq_map (d : Nat) : ∀ ks : List IdT,
    IdT.pluckList d ks = ks.map (IdT.pluck d) := by
  intro ks
  induction ks with
  | nil => rfl
  | cons t ts ih =>
    show IdT.pluck d t :: IdT.pluckList d ts = _
    rw [ih, List.map_cons]

theorem pluckList_map_rootId (d : Nat) (ks : List IdT) :
    (IdT.pluckList d ks).map IdT.rootId = ks.map IdT.rootId := by
  rw [pluckList_eq_map, List.map_map]
  exact List.map_congr_left (fun x _ => IdT.pluck_rootId d x)

theorem removeFirstD_mem {d : Nat} : ∀ {ks : List IdT} {x : IdT},
    (IdT.idsList ks).Nodup → x ∈ removeFirstD d ks → x ∈ ks ∧ x.rootId ≠ d := by
  intro ks
  induction ks with
  | nil => intro x _ hx; cases hx
  | cons t ts ih =>
    intro x hn hx
    have hn2 : (t.ids ++ IdT.idsList ts).Nodup := by simpa [IdT.idsList] using hn
    have hdisj := List.disjoint_of_nodup_append hn2
    by_cases h : t.rootId = d
    · rw [show removeFirstD d (t :: ts) = ts from by simp [removeFirstD, h]] at hx
      refine ⟨List.mem_cons_of_mem _ hx, ?_⟩
      intro hxr
      exact hdisj (h ▸ t.rootId_mem_ids) (mem_idsList.mpr ⟨x, hx, hxr ▸ x.rootId_mem_ids⟩)
    · rw [show removeFirstD d (t :: ts) = t :: removeFirstD d ts from
        by simp [removeFirstD, h]] at hx
      rcases List.mem_cons.mp hx with he | hm
      · exact ⟨he ▸ List.mem_cons_self _ _, he ▸ h⟩
      · obtain ⟨h1, h2⟩ := ih hn2.of_append_right hm
        exact ⟨List.mem_cons_of_mem _ h1, h2⟩

theorem subT_inv {a : IdT} {i : Nat} {ks : List IdT} (h : SubT a (IdT.node i ks)) :
    a = IdT.node i ks ∨ ∃ k ∈ ks, SubT a k := by
  cases h with
  | refl => exact Or.inl rfl
  | kid hk hs => exact Or.inr ⟨_, hk, hs⟩

theorem subT_proper_root_notin {a t : IdT} (hn : t.ids.Nodup) (hs : SubT a t)
    (hne : a.rootId ≠ t.rootId) : t.rootId ∉ a.ids := by
  cases t with
  | node i ks =>
    rcases subT_inv hs with he | ⟨k, hk, hsk⟩
    · rw [he] at hne
      exact (hne rfl).elim
    · intro hmem
      exact nodup_root_notin_kid hn hk (hsk.ids_subset _ hmem)

/-- Locate the tree-parent of a non-root id. -/
theorem locate_parent : ∀ {t : IdT} {y : Nat}, y ∈ t.ids → y ≠ t.rootId →
    ∃ (p : Nat) (pks : List IdT) (dsub : IdT),
      SubT (IdT.node p pks) t ∧ dsub ∈ pks ∧ dsub.rootId = y := by
  intro t
  induction t using IdT.strongInduction with
  | h i ks ih =>
    intro y hy hne
    have hyl : y ∈ IdT.idsList ks := by
      rcases List.mem_cons.mp (show y ∈ i :: IdT.idsList ks from hy) with he | hm
      · exact absurd he (by simpa [IdT.rootId] using hne)
      · exact hm
    obtain ⟨k, hk, hyk⟩ := mem_idsList.mp hyl
    by_cases hr : y = k.rootId
    · exact ⟨i, ks, k, SubT.refl _, hk, hr.symm⟩
    · obtain ⟨p, pks, dsub, hsub, hd, hdr⟩ := ih k hk hyk hr
      exact ⟨p, pks, dsub, SubT.trans hsub (SubT.kid hk (SubT.refl _)), hd, hdr⟩

theorem SubT.nodup_ids {a t : IdT} (hs : SubT a t) (hn : t.ids.Nodup) :
    a.ids.Nodup := by
  induction hs with
  | refl => exact hn
  | kid hk _ ih =>
    exact ih (nodup_idsList_mem (nodup_ids_head hn).2 hk)

/-- The dependency ids of a decorated tree node are the ids of its subtree's
kids. -/
theorem cs_facts {s : Store} {T : IdT} {d : Nat} {cs : List Nat}
    (hdeco : Deco s T) (hnodup : T.ids.Nodup) (hd : d ∈ T.ids)
    (hdeps : s.depsAt d = cs) :
    ∃ dsub, SubT dsub T ∧ dsub.rootId = d ∧ Deco s dsub ∧
      cs = dsub.kids.map IdT.rootId ∧ (∀ c ∈ cs, c ∈ dsub.ids ∧ c ≠ d) := by
  obtain ⟨dsub, hsub, hroot⟩ := subtree_at hd
  have hdsub := hdeco.sub hsub
  have hnd : dsub.ids.Nodup := hsub.nodup_ids hnodup
  cases dsub with
  | node r dks =>
    have hr : r = d := by simpa [IdT.rootId] using hroot
    subst hr
    cases hdsub with
    | node hget hdeps2 hpar2 hkids2 =>
      have hcs : cs = dks.map IdT.rootId := by
        rw [← hdeps]
        simp [Store.depsAt, hget, hdeps2]
      refine ⟨IdT.node r dks, hsub, hroot, hdeco.sub hsub, by simpa [IdT.kids] using hcs, ?_⟩
      intro c hc
      rw [hcs] at hc
      obtain ⟨kc, hkc, hkcr⟩ := List.mem_map.mp hc
      constructor
      · simp only [IdT.ids, List.mem_cons]
        exact Or.inr (mem_idsList.mpr ⟨kc, hkc, hkcr ▸ kc.rootId_mem_ids⟩)
      · intro he
        refine nodup_root_notin_kid hnd hkc ?_
        exact (hkcr.trans he) ▸ kc.rootId_mem_ids

theorem Deco.inv {s : Store} {i : Nat} {ks : List IdT}
    (h : Deco s (IdT.node i ks)) :
    ∃ nd, s.get i = some nd ∧ nd.deps = ks.map IdT.rootId ∧
      (∀ k ∈ ks, s.parentAt k.rootId = some i) ∧ (∀ k ∈ ks, Deco s k) := by
  cases h with
  | node hget hdeps hpar hkids => exact ⟨_, hget, hdeps, hpar, hkids⟩

theorem Deco.cs_eq {s : Store} {t : IdT} (h : Deco s t) :
    s.depsAt t.rootId = t.kids.map IdT.rootId := by
  cases t with
  | node i ks =>
    obtain ⟨nd, hget, hdeps, _, _⟩ := h.inv
    simp [Store.depsAt, IdT.rootId, IdT.kids, hget, hdeps]

theorem Deco.present_ids {s : Store} {t : IdT} (h : Deco s t) {z : Nat}
    (hz : z ∈ t.ids) : ∃ n, s.get z = some n := by
  obtain ⟨a, ha, har⟩ := subtree_at hz
  obtain ⟨n, hn⟩ := (h.sub ha).present
  exact ⟨n, har ▸ hn⟩

theorem Deco.pluck {s s3 : Store} {d P : Nat} {cs : List Nat} :
    ∀ {T : IdT}, Deco s T → T.ids.Nodup → d ∈ T.ids → d ≠ T.rootId →
    s.parentAt d = some P → s.depsAt d = cs →
    (∀ pn, s.get P = some pn → s3.get P = some { pn with deps := pn.deps.erase d ++ cs }) →
    (∀ c ∈ cs, ∀ cn, s.get c = some cn → s3.get c = some { cn with parent := some P }) →
    (∀ x, x ≠ P → x ≠ d → x ∉ cs → s3.get x = s.get x) →
    Deco s3 (IdT.pluck d T) := by
  intro T
  induction T using IdT.strongInduction with
  | h i ks ih =>
    intro hdeco hnodup hdin hdne hpar hdeps hP hcs hother
    obtain ⟨nd, hget0, hdeps0, hpar0, hkids0⟩ := hdeco.inv
    have hnl : (IdT.idsList ks).Nodup := (nodup_ids_head hnodup).2
    have hnei : d ≠ i := by simpa [IdT.rootId] using hdne
    have hdl : d ∈ IdT.idsList ks := by
      rcases List.mem_cons.mp (show d ∈ i :: IdT.idsList ks from hdin) with he | hm
      · exact (hnei he).elim
      · exact hm
    by_cases hany : ks.any (fun k => k.rootId == d) = true
    · -- branch A: d is a kid-root of the top node
      obtain ⟨k, hk, hkrb⟩ := List.any_eq_true.mp hany
      have hkr : k.rootId = d := by simpa using hkrb
      have hPi : P = i := by
        have h1 := hpar0 k hk
        rw [hkr, hpar] at h1
        exact Option.some_injective _ h1
      have hkdeco := hkids0 k hk
      have hnk : k.ids.Nodup := nodup_idsList_mem hnl hk
      have hcsk : cs = k.kids.map IdT.rootId := by
        rw [← hdeps, ← hkr]
        exact hkdeco.cs_eq
      have hkof : kidsOfFirst d ks = k.kids := kidsOfFirst_eq hnl hk hkr
      have hget3 : s3.get i = some { nd with deps := nd.deps.erase d ++ cs } := by
        rw [← hPi]
        exact hP nd (by rw [hPi]; exact hget0)
      have hcs_sub_k : ∀ c ∈ cs, c ∈ k.ids ∧ c ≠ d := by
        intro c hc
        rw [hcsk] at hc
        obtain ⟨kc, hkc, hkcr⟩ := List.mem_map.mp hc
        cases k with
        | node kr kks =>
          have hkc2 : kc ∈ kks := by simpa [IdT.kids] using hkc
          constructor
          · simp only [IdT.ids, List.mem_cons]
            exact Or.inr (mem_idsList.mpr ⟨kc, hkc2, hkcr ▸ kc.rootId_mem_ids⟩)
          · intro he
            have hkrd : kr = d := by simpa [IdT.rootId] using hkr
            have hmm : kr ∈ kc.ids := by
              rw [hkrd, ← he, ← hkcr]
              exact kc.rootId_mem_ids
            exact nodup_root_notin_kid hnk hkc2 hmm
      have hkid_deco : ∀ k2 ∈ k.kids, Deco s k2 := by
        cases k with
        | node kr kks =>
          obtain ⟨_, _, _, _, hkidsk⟩ := hkdeco.inv
          intro k2 hk2
          exact hkidsk k2 (by simpa [IdT.kids] using hk2)
      have hkid_root_notin : ∀ k2 ∈ k.kids, ∀ z ∈ k2.ids, z ≠ d := by
        cases k with
        | node kr kks =>
          intro k2 hk2 z hz he
          have hkrd : kr = d := by simpa [IdT.rootId] using hkr
          exact nodup_root_notin_kid hnk (by simpa [IdT.kids] using hk2)
            (by rw [hkrd, ← he]; exact hz)
      have hkid_cs_root : ∀ k2 ∈ k.kids, ∀ z ∈ k2.ids, z ∈ cs → z = k2.rootId := by
        cases k with
        | node kr kks =>
          intro k2 hk2 z hz hzcs
          rw [hcsk] at hzcs
          obtain ⟨kc, hkc, hkcr⟩ := List.mem_map.mp hzcs
          have hkc2 : kc ∈ kks := by simpa [IdT.kids] using hkc
          have hk2b : k2 ∈ kks := by simpa [IdT.kids] using hk2
          have hnkk : (IdT.idsList kks).Nodup := (nodup_ids_head hnk).2
          have hkk : k2 = kc := idsList_disjoint hnkk hkc hk2b (hkcr ▸ kc.rootId_mem_ids) hz
          rw [hkk, hkcr]
      rw [pluck_eq_pos hany]
      refine Deco.node hget3 ?_ ?_ ?_
      · show nd.deps.erase d ++ cs = _
        rw [hdeps0, hcsk, List.map_append, map_rootId_removeFirstD, hkof]
      · intro k2 hk2
        rcases List.mem_append.mp hk2 with hmem | hmem
        · obtain ⟨hk2ks, hk2r⟩ := removeFirstD_mem hnl hmem
          have hne1 : k2.rootId ≠ i := mem_kid_ne_root hnodup hk2ks k2.rootId_mem_ids
          have hne3 : k2.rootId ∉ cs := by
            intro hin
            obtain ⟨hin_k, _⟩ := hcs_sub_k _ hin
            have hkk : k2 = k := idsList_disjoint hnl hk hk2ks hin_k k2.rootId_mem_ids
            exact hk2r (hkk ▸ hkr)
          have heq := hother k2.rootId (by rw [hPi]; exact hne1) hk2r hne3
          have hpp := hpar0 k2 hk2ks
          simpa [Store.parentAt, heq] using hpp
        · rw [hkof] at hmem
          have hroot_cs : k2.rootId ∈ cs := by
            rw [hcsk]
            exact List.mem_map_of_mem _ hmem
          obtain ⟨cn, hcn⟩ := (hkid_deco k2 hmem).present
          have h3 := hcs _ hroot_cs cn hcn
          simp [Store.parentAt, h3, hPi]
      · intro k2 hk2
        rcases List.mem_append.mp hk2 with hmem | hmem
        · obtain ⟨hk2ks, hk2r⟩ := removeFirstD_mem hnl hmem
          refine (hkids0 k2 hk2ks).congr (nodup_idsList_mem hnl hk2ks) ?_
          intro z hz
          have hz_ne_d : z ≠ d := by
            intro he
            have hdk : z ∈ k.ids := by rw [he, ← hkr]; exact k.rootId_mem_ids
            have hkk : k2 = k := idsList_disjoint hnl hk hk2ks hdk hz
            exact hk2r (hkk ▸ hkr)
          have hz_ne_i : z ≠ i := by
            intro he
            exact nodup_root_notin_kid hnodup hk2ks (he ▸ hz)
          have hz_cs : z ∉ cs := by
            intro hin
            obtain ⟨hin_k, _⟩ := hcs_sub_k _ hin
            have hkk : k2 = k := idsList_disjoint hnl hk hk2ks hin_k hz
            exact hk2r (hkk ▸ hkr)
          obtain ⟨n, hn⟩ := (hkids0 k2 hk2ks).present_ids hz
          refine ⟨n, n, hn, ?_, rfl, fun _ => rfl⟩
          rw [hother z (by rw [hPi]; exact hz_ne_i) hz_ne_d hz_cs]
          exact hn
        · rw [hkof] at hmem
          have hk2deco := hkid_deco k2 hmem
          have hnk2 : k2.ids.Nodup := by
            cases k with
            | node kr kks =>
              exact nodup_idsList_mem (nodup_ids_head hnk).2
                (by simpa [IdT.kids] using hmem)
          refine hk2deco.congr hnk2 ?_
          intro z hz
          have hz_ne_d : z ≠ d := hkid_root_notin k2 hmem z hz
          have hz_ne_i : z ≠ i := by
            intro he
            have hzk : z ∈ k.ids := by
              cases k with
              | node kr kks =>
                simp only [IdT.ids, List.mem_cons]
                exact Or.inr (mem_idsList.mpr ⟨k2, by simpa [IdT.kids] using hmem, hz⟩)
            exact nodup_root_notin_kid hnodup hk (he ▸ hzk)
          by_cases hz_root : z = k2.rootId
          · have hz_cs : z ∈ cs := by
              rw [hcsk, hz_root]
              exact List.mem_map_of_mem _ hmem
            obtain ⟨n, hn⟩ := hk2deco.present_ids hz
            refine ⟨n, { n with parent := some P }, hn, hcs _ hz_cs n hn, rfl, ?_⟩
            intro hne
            exact (hne hz_root).elim
          · have hz_cs : z ∉ cs := by
              intro hin
              exact hz_root (hkid_cs_root k2 hmem z hz hin)
            obtain ⟨n, hn⟩ := hk2deco.present_ids hz
            refine ⟨n, n, hn, ?_, rfl, fun _ => rfl⟩
            rw [hother z (by rw [hPi]; exact hz_ne_i) hz_ne_d hz_cs]
            exact hn
    · -- branch B: d lies strictly inside one kid
      obtain ⟨kd, hkd, hdkd⟩ := mem_idsList.mp hdl
      have hdkr : d ≠ kd.rootId := by
        intro he
        rw [List.any_eq_true] at hany
        exact hany ⟨kd, hkd, by simpa using he.symm⟩
      obtain ⟨dsub, hdsubT, hdsubr, hdsubdeco, hcseq, hcmem⟩ :=
        cs_facts (Deco.node hget0 hdeps0 hpar0 hkids0) hnodup hdin hdeps
      have hdsub_kd : SubT dsub kd := by
        rcases subT_inv hdsubT with he | ⟨k2, hk2, hsubk⟩
        · exfalso
          rw [he] at hdsubr
          have hid : i = d := by simpa [IdT.rootId] using hdsubr
          exact hnei hid.symm
        · have hd_in_k2 : d ∈ k2.ids := hsubk.ids_subset _ (hdsubr ▸ dsub.rootId_mem_ids)
          have hkk : k2 = kd := idsList_disjoint hnl hkd hk2 hdkd hd_in_k2
          exact hkk ▸ hsubk
      have hcs_in_kd : ∀ c ∈ cs, c ∈ kd.ids := by
        intro c hc
        exact hdsub_kd.ids_subset _ (hcmem c hc).1
      have hP_in_kd : P ∈ kd.ids := by
        obtain ⟨p, pks, dsub2, hsub2, hd2, hdr2⟩ := locate_parent hdin hdne
        have hpp : s.parentAt d = some p := by
          obtain ⟨_, _, _, hpar2, _⟩ := ((Deco.node hget0 hdeps0 hpar0 hkids0).sub hsub2).inv
          have hq := hpar2 dsub2 hd2
          rwa [hdr2] at hq
        have hPp : P = p := by
          rw [hpar] at hpp
          exact Option.some_injective _ hpp
      -- the parent subtree cannot be the whole top node in branch B
        rcases subT_inv hsub2 with he | ⟨k2, hk2, hsubk⟩
        · exfalso
          rw [List.any_eq_true] at hany
          have hpks : pks = ks := by
            cases he
            rfl
          refine hany ⟨dsub2, ?_, by simpa using hdr2⟩
          rw [← hpks]
          exact hd2
        · have hp_in_k2 : p ∈ k2.ids := by
            refine hsubk.ids_subset _ ?_
            exact (IdT.node p pks).rootId_mem_ids
          have hd_in_k2 : d ∈ k2.ids := by
            refine hsubk.ids_subset _ ?_
            simp only [IdT.ids, List.mem_cons]
            exact Or.inr (mem_idsList.mpr ⟨dsub2, hd2, hdr2 ▸ dsub2.rootId_mem_ids⟩)
          have hkk : k2 = kd := idsList_disjoint hnl hkd hk2 hdkd hd_in_k2
          rw [hPp, ← hkk]
          exact hp_in_k2
      have hi_ne_P : i ≠ P := by
        intro he
        exact nodup_root_notin_kid hnodup hkd (he ▸ hP_in_kd)
      have hi_ne_cs : i ∉ cs := by
        intro hin
        exact nodup_root_notin_kid hnodup hkd (hcs_in_kd i hin)
      have hget3 : s3.get i = some nd := by
        rw [hother i hi_ne_P (Ne.symm hnei) hi_ne_cs]
        exact hget0
      have hkd_root_ne_cs : ∀ x, x ∈ ks → x.rootId ∉ cs := by
        intro x hx hin
        have hin_kd : x.rootId ∈ kd.ids := hcs_in_kd _ hin
        have hkk : x = kd := idsList_disjoint hnl hkd hx hin_kd x.rootId_mem_ids
        have hx_in_dsub : x.rootId ∈ dsub.ids := (hcmem _ hin).1
        have hne : dsub.rootId ≠ kd.rootId := by rw [hdsubr]; exact hdkr
        exact subT_proper_root_notin (nodup_idsList_mem hnl hkd) hdsub_kd hne
          (hkk ▸ hx_in_dsub)
      rw [pluck_eq_neg hany]
      refine Deco.node hget3 ?_ ?_ ?_
      · rw [hdeps0, pluckList_map_rootId]
      · intro k2 hk2
        rw [pluckList_eq_map] at hk2
        obtain ⟨x, hx, hxe⟩ := List.mem_map.mp hk2
        have hroot : k2.rootId = x.rootId := by rw [← hxe, IdT.pluck_rootId]
        rw [hroot]
        have hx_ne_d : x.rootId ≠ d := by
          intro he
          rw [List.any_eq_true] at hany
          exact hany ⟨x, hx, by simpa using he⟩
        have hx_ne_cs : x.rootId ∉ cs := hkd_root_ne_cs x hx
        by_cases hxP : x.rootId = P
        · obtain ⟨pn, hpn⟩ := (hkids0 x hx).present
          rw [hxP] at hpn
          have h3 := hP pn hpn
          have hpp := hpar0 x hx
          rw [hxP] at hpp
          simp only [Store.parentAt, hpn, Option.some_bind] at hpp
          rw [hxP]
          simp [Store.parentAt, h3, hpp]
        · have heq := hother x.rootId hxP hx_ne_d hx_ne_cs
          have hpp := hpar0 x hx
          simpa [Store.parentAt, heq] using hpp
      · intro k2 hk2
        rw [pluckList_eq_map] at hk2
        obtain ⟨x, hx, hxe⟩ := List.mem_map.mp hk2
        by_cases hxkd : x = kd
        · subst hxkd
          rw [← hxe]
          exact ih x hx (hkids0 x hx) (nodup_idsList_mem hnl hx) hdkd
            hdkr hpar hdeps hP hcs hother
        · have hx_no_d : d ∉ x.ids := by
            intro hdx
            exact hxkd (idsList_disjoint hnl hkd hx hdkd hdx)
          rw [← hxe, IdT.pluck_noop hx_no_d]
          refine (hkids0 x hx).congr (nodup_idsList_mem hnl hx) ?_
          intro z hz
          have hz_ne_d : z ≠ d := fun he => hx_no_d (he ▸ hz)
          have hz_ne_P : z ≠ P := by
            intro he
            exact hxkd (idsList_disjoint hnl hkd hx (he ▸ hP_in_kd) hz)
          have hz_cs : z ∉ cs := by
            intro hin
            exact hxkd (idsList_disjoint hnl hkd hx (hcs_in_kd z hin) hz)
          obtain ⟨n, hn⟩ := (hkids0 x hx).present_ids hz
          refine ⟨n, n, hn, ?_, rfl, fun _ => rfl⟩
          rw [hother z hz_ne_P hz_ne_d hz_cs]
          exact hn

/-! ### Store surgery and the characterization of one removal step -/

theorem Store.get_set_self (s : Store) (i : Nat) (nd : Node) :
    (s.set i nd).get i = some nd := by
  simp [Store.set]

theorem Store.get_set_ne (s : Store) {i j : Nat} (nd : Node) (h : j ≠ i) :
    (s.set i nd).get j = s.get j := by
  simp [Store.set, h]

theorem Store.next_set (s : Store) (i : Nat) (nd : Node) :
    (s.set i nd).next = s.next := rfl

/-- Full characterization of the child re-parenting loop: each child of the
removed node is re-pointed at `P` and appended to `P`'s dependency list in
order; no other record changes. -/
theorem reparentLoop_go {d P : Nat} : ∀ (todo : List Nat) (s : Store) (dn pn : Node),
    s.get d = some dn → dn.parent = some P → s.get P = some pn → P ≠ d →
    d ∉ todo → P ∉ todo →
    (∀ c ∈ todo, ∃ cn, s.get c = some cn) →
    ∃ s2, reparentLoop d s todo = .ok s2 ∧
      s2.get P = some { pn with deps := pn.deps ++ todo } ∧
      s2.get d = some dn ∧
      (∀ c ∈ todo, ∀ cn, s.get c = some cn → s2.get c = some { cn with parent := some P }) ∧
      (∀ x, x ≠ P → x ∉ todo → s2.get x = s.get x) ∧
      s2.next = s.next := by
  intro todo
  induction todo with
  | nil =>
    intro s dn pn hget hpar hPget hPd _ _ _
    refine ⟨s, rfl, ?_, hget, ?_, ?_, rfl⟩
    · simp only [List.append_nil]
      exact hPget
    · intro c hc
      cases hc
    · intro x _ _
      rfl
  | cons c more ih =>
    intro s dn pn hget hpar hPget hPd hd hP hpres
    obtain ⟨cn, hcn⟩ := hpres c (List.mem_cons_self _ _)
    have hdc : d ≠ c := fun he => hd (he ▸ List.mem_cons_self _ _)
    have hPc : P ≠ c := fun he => hP (he ▸ List.mem_cons_self _ _)
    have hs1P : ((s.set c { cn with parent := some P }).get P) = some pn :=
      (Store.get_set_ne _ _ hPc).trans hPget
    have hs1c : (((s.set c { cn with parent := some P }).set P
        { pn with deps := pn.deps ++ [c] }).get c)
        = some { cn with parent := some P } := by
      rw [Store.get_set_ne _ _ (Ne.symm hPc)]
      exact Store.get_set_self _ _ _
    have hstep : reparentLoop d s (c :: more)
        = reparentLoop d (((s.set c { cn with parent := some P }).set P
            { pn with deps := pn.deps ++ [c] }).set c { cn with parent := some P }) more := by
      simp only [reparentLoop, hget, hcn, hpar, addDependency, hs1P, hs1c]
    set s1 : Store := ((s.set c { cn with parent := some P }).set P
        { pn with deps := pn.deps ++ [c] }).set c { cn with parent := some P } with hs1def
    have hs1d : s1.get d = some dn := by
      rw [Store.get_set_ne _ _ hdc, Store.get_set_ne _ _ (Ne.symm hPd),
        Store.get_set_ne _ _ hdc]
      exact hget
    have hs1Pv : s1.get P = some { pn with deps := pn.deps ++ [c] } := by
      rw [Store.get_set_ne _ _ hPc]
      exact Store.get_set_self _ _ _
    have hs1cv : s1.get c = some { cn with parent := some P } := Store.get_set_self _ _ _
    have hs1x : ∀ x, x ≠ c → x ≠ P → s1.get x = s.get x := by
      intro x hxc hxP
      rw [Store.get_set_ne _ _ hxc, Store.get_set_ne _ _ hxP, Store.get_set_ne _ _ hxc]
    have hpres1 : ∀ c2 ∈ more, ∃ cn2, s1.get c2 = some cn2 := by
      intro c2 hc2
      by_cases hcc : c2 = c
      · exact ⟨_, hcc ▸ hs1cv⟩
      · have hc2P : c2 ≠ P := fun he => hP (he ▸ List.mem_cons_of_mem _ hc2)
        obtain ⟨cn2, hcn2⟩ := hpres c2 (List.mem_cons_of_mem _ hc2)
        exact ⟨cn2, by rw [hs1x c2 hcc hc2P]; exact hcn2⟩
    obtain ⟨s2, hrun, hP2, hd2, hc2, hoth2, hnext2⟩ :=
      ih s1 dn { pn with deps := pn.deps ++ [c] } hs1d hpar hs1Pv hPd
        (fun hm => hd (List.mem_cons_of_mem _ hm))
        (fun hm => hP (List.mem_cons_of_mem _ hm)) hpres1
    refine ⟨s2, ?_, ?_, hd2, ?_, ?_, ?_⟩
    · rw [hstep]
      exact hrun
    · rw [show (pn.deps ++ [c]) ++ more = pn.deps ++ c :: more by simp] at hP2
      exact hP2
    · intro c2 hc2mem cn2 hcn2
      by_cases hcc : c2 = c
      · subst hcc
        have hcneq : cn2 = cn := by
          rw [hcn] at hcn2
          exact (Option.some_injective _ hcn2).symm
        subst hcneq
        by_cases hcm : c2 ∈ more
        · have h3 := hc2 c2 hcm { cn2 with parent := some P } hs1cv
          exact h3
        · rw [hoth2 c2 (Ne.symm hPc) hcm]
          exact hs1cv
      · have hmem : c2 ∈ more := by
          rcases List.mem_cons.mp hc2mem with he | hm
          · exact (hcc he).elim
          · exact hm
        have hc2P : c2 ≠ P := fun he => hP (he ▸ hc2mem)
        refine hc2 c2 hmem cn2 ?_
        rw [hs1x c2 hcc hc2P]
        exact hcn2
    · intro x hxP hxmem
      have hxc : x ≠ c := fun he => hxmem (he ▸ List.mem_cons_self _ _)
      have hxm : x ∉ more := fun hm => hxmem (List.mem_cons_of_mem _ hm)
      rw [hoth2 x hxP hxm, hs1x x hxc hxP]
    · rw [hnext2]
      rfl

/-- A dequeued non-`EmptyRequirement` node leaves the store untouched and
enqueues its dependencies. -/
theorem rmStep_nonempty {s : Store} {d : Nat} {nd : Node}
    (hget : s.get d = some nd) (hkind : nd.kind ≠ .empty) :
    rmStep s d = .ok (s, nd.deps) := by
  simp [rmStep, hget, hkind]

/-- A dequeued `EmptyRequirement` node `d` with parent `P` is detached: its
children are re-parented to `P` and spliced into `P`'s list where `d` is
erased, `d`'s parent is cleared, and nothing else changes. -/
theorem rmStep_empty {s : Store} {d P : Nat} {dn pn : Node}
    (hget : s.get d = some dn) (hkind : dn.kind = .empty)
    (hpar : dn.parent = some P) (hPget : s.get P = some pn)
    (hdmem : d ∈ pn.deps) (hPd : P ≠ d)
    (hdcs : d ∉ dn.deps) (hPcs : P ∉ dn.deps)
    (hpres : ∀ c ∈ dn.deps, ∃ cn, s.get c = some cn) :
    ∃ s3, rmStep s d = .ok (s3, dn.deps) ∧
      s3.get d = some { dn with parent := none } ∧
      s3.get P = some { pn with deps := pn.deps.erase d ++ dn.deps } ∧
      (∀ c ∈ dn.deps, ∀ cn, s.get c = some cn → s3.get c = some { cn with parent := some P }) ∧
      (∀ x, x ≠ P → x ≠ d → x ∉ dn.deps → s3.get x = s.get x) ∧
      s3.next = s.next := by
  obtain ⟨s2, hrun, hP2, hd2, hc2, hoth2, hnext2⟩ :=
    reparentLoop_go dn.deps s dn pn hget hpar hPget hPd hdcs hPcs hpres
  have hdmem2 : d ∈ pn.deps ++ dn.deps := List.mem_append_left _ hdmem
  have hsAd : ((s2.set P { pn with deps := (pn.deps ++ dn.deps).erase d }).get d)
      = some dn := by
    rw [Store.get_set_ne _ _ (Ne.symm hPd)]
    exact hd2
  have heq : rmStep s d = .ok ((s2.set P { pn with deps := (pn.deps ++ dn.deps).erase d }).set d
      { dn with parent := none }, dn.deps) := by
    simp only [rmStep, hget, hkind, if_pos, hrun, hd2, hpar, hP2, hsAd]
    simp [hdmem2]
  refine ⟨_, heq, ?_, ?_, ?_, ?_, ?_⟩
  · exact Store.get_set_self _ _ _
  · rw [Store.get_set_ne _ _ hPd, Store.get_set_self,
      List.erase_append_left _ hdmem]
  · intro c hc cn hcn
    have hcd : c ≠ d := fun he => hdcs (he ▸ hc)
    have hcP : c ≠ P := fun he => hPcs (he ▸ hc)
    rw [Store.get_set_ne _ _ hcd, Store.get_set_ne _ _ hcP]
    exact hc2 c hc cn hcn
  · intro x hxP hxd hxcs
    rw [Store.get_set_ne _ _ hxd, Store.get_set_ne _ _ hxP]
    exact hoth2 x hxP hxcs
  · rw [Store.next_set, Store.next_set]
    exact hnext2

/-! ### Subtree lemmas for the removal queue invariant -/

theorem removeFirstD_mem_of {d : Nat} : ∀ {ks : List IdT} {k : IdT},
    k ∈ ks → k.rootId ≠ d → k ∈ removeFirstD d ks := by
  intro ks
  induction ks with
  | nil => intro k hk _; cases hk
  | cons t ts ih =>
    intro k hk hkr
    by_cases h : t.rootId = d
    · rw [show removeFirstD d (t :: ts) = ts from by simp [removeFirstD, h]]
      rcases List.mem_cons.mp hk with he | hm
      · exact absurd h (he ▸ hkr)
      · exact hm
    · rw [show removeFirstD d (t :: ts) = t :: removeFirstD d ts from by
        simp [removeFirstD, h]]
      rcases List.mem_cons.mp hk with he | hm
      · exact he ▸ List.mem_cons_self _ _
      · exact List.mem_cons_of_mem _ (ih hm hkr)

theorem subT_root_eq {a t : IdT} (hn : t.ids.Nodup) (hs : SubT a t)
    (hr : a.rootId = t.rootId) : a = t := by
  cases t with
  | node i ks =>
    rcases subT_inv hs with he | ⟨k, hk, hsk⟩
    · exact he
    · exfalso
      have hmem : (IdT.node i ks).rootId ∈ k.ids := by
        rw [← hr]
        exact hsk.ids_subset _ a.rootId_mem_ids
      exact nodup_root_notin_kid hn hk hmem

/-- In a duplicate-free tree the subtree rooted at a given id is unique. -/
theorem subtree_unique {t : IdT} : t.ids.Nodup → ∀ {a b : IdT}, SubT a t → SubT b t →
    a.rootId = b.rootId → a = b := by
  induction t using IdT.strongInduction with
  | h i ks ih =>
    intro hn a b ha hb hr
    rcases subT_inv ha with hea | ⟨k1, hk1, hs1⟩
    · subst hea
      exact (subT_root_eq hn hb hr.symm).symm
    · rcases subT_inv hb with heb | ⟨k2, hk2, hs2⟩
      · subst heb
        exact subT_root_eq hn ha hr
      · have hnl := (nodup_ids_head hn).2
        have hmem1 : a.rootId ∈ k1.ids := hs1.ids_subset _ a.rootId_mem_ids
        have hmem2 : a.rootId ∈ k2.ids := by
          rw [hr]
          exact hs2.ids_subset _ b.rootId_mem_ids
        have hkk : k2 = k1 := idsList_disjoint hnl hk1 hk2 hmem1 hmem2
        refine ih k1 hk1 (nodup_idsList_mem hnl hk1) hs1 ?_ hr
        rw [← hkk]
        exact hs2

/-- A subtree avoiding the removed node survives the removal. -/
theorem subT_pluck {d : Nat} : ∀ {T x : IdT}, T.ids.Nodup → d ∈ T.ids → d ≠ T.rootId →
    SubT x T → d ∉ x.ids → SubT x (T.pluck d) := by
  intro T
  induction T using IdT.strongInduction with
  | h i ks ih =>
    intro x hn hd hne hsub hdx
    have hnl := (nodup_ids_head hn).2
    rcases subT_inv hsub with he | ⟨k, hk, hsk⟩
    · exact absurd hd (he ▸ hdx)
    · by_cases hany : ks.any (fun k2 => k2.rootId == d) = true
      · rw [pluck_eq_pos hany]
        by_cases hdk : d ∈ k.ids
        · obtain ⟨kd, hkd, hkrb⟩ := List.any_eq_true.mp hany
          have hkr : kd.rootId = d := by simpa using hkrb
          have hkkd : k = kd := idsList_disjoint hnl hkd hk (hkr ▸ kd.rootId_mem_ids) hdk
          have hkr2 : k.rootId = d := by rw [hkkd]; exact hkr
          cases k with
          | node kr kks =>
            rcases subT_inv hsk with hex | ⟨kk, hkk2, hskk⟩
            · exact absurd (hkr2 ▸ (IdT.node kr kks).rootId_mem_ids : d ∈ _) (hex ▸ hdx)
            · have hkof : kidsOfFirst d ks = kks := kidsOfFirst_eq hnl hk hkr2
              refine SubT.kid ?_ hskk
              rw [hkof]
              exact List.mem_append_right _ hkk2
        · have hkrne : k.rootId ≠ d := fun he2 => hdk (he2 ▸ k.rootId_mem_ids)
          exact SubT.kid (List.mem_append_left _ (removeFirstD_mem_of hk hkrne)) hsk
      · rw [pluck_eq_neg hany, pluckList_eq_map]
        by_cases hdk : d ∈ k.ids
        · have hdkr : d ≠ k.rootId := by
            intro he2
            rw [List.any_eq_true] at hany
            exact hany ⟨k, hk, by simpa using he2.symm⟩
          exact SubT.kid (List.mem_map_of_mem _ hk)
            (ih k hk (nodup_idsList_mem hnl hk) hdk hdkr hsk hdx)
        · have hnoop : IdT.pluck d k = k := IdT.pluck_noop hdk
          refine SubT.kid ?_ hsk
          rw [← hnoop]
          exact List.mem_map_of_mem _ hk

/-- The kids of the removed node become subtrees of the plucked tree. -/
theorem subT_pluck_kid {d : Nat} : ∀ {T a : IdT}, T.ids.Nodup → SubT a T → a.rootId = d →
    d ≠ T.rootId → ∀ k ∈ a.kids, SubT k (T.pluck d) := by
  intro T
  induction T using IdT.strongInduction with
  | h i ks ih =>
    intro a hn hsub har hne k hk
    have hnl := (nodup_ids_head hn).2
    rcases subT_inv hsub with he | ⟨kk, hkk, hska⟩
    · exact absurd (by rw [← har, he]) hne
    · have hda : d ∈ kk.ids := hska.ids_subset _ (har ▸ a.rootId_mem_ids)
      by_cases hany : ks.any (fun k2 => k2.rootId == d) = true
      · obtain ⟨kd, hkd, hkrb⟩ := List.any_eq_true.mp hany
        have hkr : kd.rootId = d := by simpa using hkrb
        have hkkkd : kk = kd := idsList_disjoint hnl hkd hkk (hkr ▸ kd.rootId_mem_ids) hda
        have hakk : a = kk :=
          subT_root_eq (nodup_idsList_mem hnl hkk) hska (by rw [har, hkkkd, hkr])
        rw [pluck_eq_pos hany]
        refine SubT.kid ?_ (SubT.refl k)
        refine List.mem_append_right _ ?_
        rw [kidsOfFirst_eq hnl hkd hkr, ← hkkkd, ← hakk]
        exact hk
      · have hdkkr : d ≠ kk.rootId := by
          intro he2
          rw [List.any_eq_true] at hany
          exact hany ⟨kk, hkk, by simpa using he2.symm⟩
        rw [pluck_eq_neg hany, pluckList_eq_map]
        exact SubT.kid (List.mem_map_of_mem _ hkk)
          (ih kk hkk (nodup_idsList_mem hnl hkk) hska har hdkkr k hk)

theorem map_rootId_nodup : ∀ {ks : List IdT}, (IdT.idsList ks).Nodup →
    (ks.map IdT.rootId).Nodup := by
  intro ks
  induction ks with
  | nil => intro _; exact List.nodup_nil
  | cons t ts ih =>
    intro h
    have h2 : (t.ids ++ IdT.idsList ts).Nodup := by simpa [IdT.idsList] using h
    refine List.nodup_cons.mpr ⟨?_, ih h2.of_append_right⟩
    intro hmem
    obtain ⟨u, hu, hur⟩ := List.mem_map.mp hmem
    exact (List.disjoint_of_nodup_append h2) t.rootId_mem_ids
      (mem_idsList.mpr ⟨u, hu, hur ▸ u.rootId_mem_ids⟩)

theorem idsList_length_le {k : IdT} : ∀ {ks : List IdT}, k ∈ ks →
    k.ids.length ≤ (IdT.idsList ks).length := by
  intro ks
  induction ks with
  | nil => intro hk; cases hk
  | cons t ts ih =>
    intro hk
    rw [show IdT.idsList (t :: ts) = t.ids ++ IdT.idsList ts from rfl, List.length_append]
    rcases List.mem_cons.mp hk with he | hm
    · rw [he]
      exact Nat.le_add_right _ _
    · exact le_trans (ih hm) (Nat.le_add_left _ _)

theorem kid_ids_length {t k : IdT} (hk : k ∈ t.kids) :
    k.ids.length < t.ids.length := by
  cases t with
  | node i ks =>
    have h1 : k.ids.length ≤ (IdT.idsList ks).length :=
      idsList_length_le (by simpa [IdT.kids] using hk)
    have h2 : (IdT.node i ks).ids.length = (IdT.idsList ks).length + 1 := by
      simp [IdT.ids]
    omega

/-! ### The master run of the removal queue -/

/-- Master invariant run of the `while queue` loop: a successful run returns a
store decorating a tree obtained from the original one by plucking a list of
originally-empty non-root nodes, no non-root `EmptyRequirement` survives, and
every node keeps its kind while the root also keeps its parent. -/
theorem rmLoop_run {r : Nat} {s0 : Store} {T0 : IdT} :
    ∀ (fuel : Nat) (s : Store) (T : IdT) (qts : List IdT) (ds0 : List Nat),
    Deco s T → T.ids.Nodup → T.rootId = r →
    (∀ x ∈ qts, SubT x T) → (IdT.idsList qts).Nodup → r ∉ IdT.idsList qts →
    (∀ z ∈ T.ids, z ≠ r → s.kindAt z = some ReqKind.empty → z ∈ IdT.idsList qts) →
    (∀ z, s.kindAt z = s0.kindAt z) → s.parentAt r = s0.parentAt r →
    T = List.foldl (fun t d2 => t.pluck d2) T0 ds0 →
    (∀ d2 ∈ ds0, d2 ∈ T0.ids ∧ d2 ≠ r ∧ s0.kindAt d2 = some ReqKind.empty) →
    (∀ z ∈ T.ids, z ∈ T0.ids) →
    ∀ res, rmLoop fuel s (qts.map IdT.rootId) = some res →
    ∃ s2 T2 ds, res = .ok s2 ∧ Deco s2 T2 ∧ T2.ids.Nodup ∧ T2.rootId = r ∧
      (∀ z, s2.kindAt z = s0.kindAt z) ∧ s2.parentAt r = s0.parentAt r ∧
      T2 = List.foldl (fun t d2 => t.pluck d2) T0 ds ∧
      (∀ d2 ∈ ds, d2 ∈ T0.ids ∧ d2 ≠ r ∧ s0.kindAt d2 = some ReqKind.empty) ∧
      (∀ z ∈ T2.ids, z ≠ r → s2.kindAt z ≠ some ReqKind.empty) := by
  intro fuel
  induction fuel with
  | zero =>
    intro s T qts ds0 h1 h2 h3 h4 h5 h6 h7 h8 h9 h10 h11 h12 res hres
    cases qts with
    | nil =>
      rw [show rmLoop 0 s (List.map IdT.rootId []) = some (.ok s) from rfl] at hres
      cases hres
      refine ⟨s, T, ds0, rfl, h1, h2, h3, h8, h9, h10, h11, ?_⟩
      intro z hz hzr hemp
      exact absurd (h7 z hz hzr hemp) (List.not_mem_nil z)
    | cons x restT =>
      simp only [List.map_cons, rmLoop] at hres
      exact Option.noConfusion hres
  | succ fuel ih =>
    intro s T qts ds0 h1 h2 h3 h4 h5 h6 h7 h8 h9 h10 h11 h12 res hres
    cases qts with
    | nil =>
      rw [show rmLoop (fuel + 1) s (List.map IdT.rootId []) = some (.ok s) from rfl] at hres
      cases hres
      refine ⟨s, T, ds0, rfl, h1, h2, h3, h8, h9, h10, h11, ?_⟩
      intro z hz hzr hemp
      exact absurd (h7 z hz hzr hemp) (List.not_mem_nil z)
    | cons x restT =>
      obtain ⟨d, dks⟩ := x
      rw [List.map_cons] at hres
      have hxT : SubT (IdT.node d dks) T := h4 _ (List.mem_cons_self _ _)
      have hdT : d ∈ T.ids := hxT.ids_subset _ ((IdT.node d dks).rootId_mem_ids)
      have hxids : (IdT.node d dks).ids.Nodup := hxT.nodup_ids h2
      have hdq : d ∈ IdT.idsList (IdT.node d dks :: restT) :=
        mem_idsList.mpr ⟨_, List.mem_cons_self _ _, (IdT.node d dks).rootId_mem_ids⟩
      have hdr : d ≠ r := fun he => h6 (he ▸ hdq)
      have hdne : d ≠ T.rootId := fun he => hdr (he.trans h3)
      have hdeco_x : Deco s (IdT.node d dks) := h1.sub hxT
      obtain ⟨dn, hdget, hdndeps, hpar_kids, hdeco_kids⟩ := hdeco_x.inv
      have hql : IdT.idsList (IdT.node d dks :: restT)
          = (IdT.node d dks).ids ++ IdT.idsList restT := rfl
      have hnlq2 : ((IdT.node d dks).ids ++ IdT.idsList restT).Nodup := by
        rw [← hql]
        exact h5
      have hdisjq := List.disjoint_of_nodup_append hnlq2
      have hr_notin_x : r ∉ (IdT.node d dks).ids := fun hm =>
        h6 (by rw [hql]; exact List.mem_append_left _ hm)
      have hnlq3 : (d :: (IdT.idsList dks ++ IdT.idsList restT)).Nodup := hnlq2
      have hnodup_new : (IdT.idsList (restT ++ dks)).Nodup := by
        rw [idsList_append]
        exact (List.perm_append_comm.nodup_iff).mp (List.nodup_cons.mp hnlq3).2
      have hr_new : r ∉ IdT.idsList (restT ++ dks) := by
        rw [idsList_append]
        intro hmem
        rcases List.mem_append.mp hmem with hm | hm
        · exact h6 (by rw [hql]; exact List.mem_append_right _ hm)
        · exact hr_notin_x (List.mem_cons.mpr (Or.inr hm))
      have hsub_new_rest : ∀ x2 ∈ restT, SubT x2 T := fun x2 hm =>
        h4 x2 (List.mem_cons_of_mem _ hm)
      by_cases hkind : dn.kind = ReqKind.empty
      · -- the dequeued node is an EmptyRequirement: it is detached
        obtain ⟨P, pks, dsub, hsubP, hdsub_mem, hdsub_root⟩ := locate_parent hdT hdne
        obtain ⟨pn0, hpget0, hpdeps0, hppar0, hpkids0⟩ := (h1.sub hsubP).inv
        have hpgetP : s.get P = some pn0 := hpget0
        have hpard : s.parentAt d = some P := by
          have hq := hppar0 dsub hdsub_mem
          rwa [hdsub_root] at hq
        have hdnpar : dn.parent = some P := by
          simp only [Store.parentAt, hdget, Option.some_bind] at hpard
          exact hpard
        have hdmem : d ∈ pn0.deps := by
          rw [hpdeps0]
          exact List.mem_map.mpr ⟨dsub, hdsub_mem, hdsub_root⟩
        have hPnodup : (IdT.node P pks).ids.Nodup := hsubP.nodup_ids h2
        have hPd : P ≠ d :=
          (mem_kid_ne_root hPnodup hdsub_mem (hdsub_root ▸ dsub.rootId_mem_ids)).symm
        have hd_in_P : d ∈ (IdT.node P pks).ids :=
          List.mem_cons.mpr (Or.inr (mem_idsList.mpr
            ⟨dsub, hdsub_mem, hdsub_root ▸ dsub.rootId_mem_ids⟩))
        have hP_notin_x : P ∉ (IdT.node d dks).ids := by
          intro hmem
          obtain ⟨aP, haP, haProot⟩ := subtree_at hmem
          have haPT : SubT aP T := haP.trans hxT
          have haPeq : aP = IdT.node P pks :=
            subtree_unique h2 haPT hsubP (by rw [haProot]; rfl)
          have hsubPx : SubT (IdT.node P pks) (IdT.node d dks) := haPeq ▸ haP
          rcases subT_inv hsubPx with he | ⟨kk, hkkmem, hskk⟩
          · exact hPd (congrArg IdT.rootId he)
          · exact nodup_root_notin_kid hxids hkkmem (hskk.ids_subset _ hd_in_P)
        have hd_notin_cs : d ∉ dn.deps := by
          rw [hdndeps]
          intro hmem
          obtain ⟨u, hu, hur⟩ := List.mem_map.mp hmem
          exact (nodup_ids_head hxids).1 (mem_idsList.mpr ⟨u, hu, hur ▸ u.rootId_mem_ids⟩)
        have hcs_in_x : ∀ c ∈ dn.deps, c ∈ (IdT.node d dks).ids := by
          intro c hc
          rw [hdndeps] at hc
          obtain ⟨u, hu, hur⟩ := List.mem_map.mp hc
          exact List.mem_cons.mpr (Or.inr (mem_idsList.mpr ⟨u, hu, hur ▸ u.rootId_mem_ids⟩))
        have hP_notin_cs : P ∉ dn.deps := fun hmem => hP_notin_x (hcs_in_x P hmem)
        have hcs_pres : ∀ c ∈ dn.deps, ∃ cn, s.get c = some cn := fun c hc =>
          h1.present_ids (hxT.ids_subset _ (hcs_in_x c hc))
        obtain ⟨s3, hstep, hd3, hP3, hc3, hoth3, hnext3⟩ :=
          rmStep_empty hdget hkind hdnpar hpgetP hdmem hPd hd_notin_cs hP_notin_cs hcs_pres
        rw [show rmLoop (fuel + 1) s ((IdT.node d dks).rootId :: List.map IdT.rootId restT)
            = rmLoop fuel s3 (List.map IdT.rootId restT ++ dn.deps) from by
          simp only [rmLoop, IdT.rootId, hstep]] at hres
        have hdepsAt : s.depsAt d = dn.deps := by simp [Store.depsAt, hdget]
        have hpluck_deco : Deco s3 (T.pluck d) := by
          refine Deco.pluck h1 h2 hdT hdne hpard hdepsAt ?_ hc3 hoth3
          intro pn' hpn'
          have he : pn' = pn0 := Option.some_injective _ (hpn'.symm.trans hpgetP)
          rw [he]
          exact hP3
        have hkind3 : ∀ z, s3.kindAt z = s.kindAt z := by
          intro z
          by_cases hzd : z = d
          · subst hzd
            simp [Store.kindAt, hd3, hdget]
          · by_cases hzP : z = P
            · subst hzP
              simp [Store.kindAt, hP3, hpgetP]
            · by_cases hzc : z ∈ dn.deps
              · obtain ⟨cn, hcn⟩ := hcs_pres z hzc
                have h3c := hc3 z hzc cn hcn
                simp [Store.kindAt, h3c, hcn]
              · simp only [Store.kindAt, hoth3 z hzP hzd hzc]
        have hmempluck : ∀ z, z ∈ (T.pluck d).ids ↔ z ≠ d ∧ z ∈ T.ids :=
          fun z => mem_ids_pluck hdT hdne h2
        have hr_notin_cs : r ∉ dn.deps := fun hm => hr_notin_x (hcs_in_x r hm)
        refine ih s3 (T.pluck d) (restT ++ dks) (ds0 ++ [d]) hpluck_deco
          (nodup_ids_pluck hdT hdne h2)
          (by rw [IdT.pluck_rootId]; exact h3)
          ?_ hnodup_new hr_new ?_ ?_ ?_ ?_ ?_ ?_ res ?_
        · intro x2 hx2
          rcases List.mem_append.mp hx2 with hm | hm
          · have hdx2 : d ∉ x2.ids := by
              intro hdx
              exact hdisjq ((IdT.node d dks).rootId_mem_ids)
                (mem_idsList.mpr ⟨x2, hm, hdx⟩)
            exact subT_pluck h2 hdT hdne (hsub_new_rest x2 hm) hdx2
          · exact subT_pluck_kid h2 hxT rfl hdne x2 hm
        · intro z hz hzr hemp
          obtain ⟨hzd, hzT⟩ := (hmempluck z).mp hz
          rw [hkind3 z] at hemp
          have hold := h7 z hzT hzr hemp
          rw [hql] at hold
          rw [idsList_append]
          rcases List.mem_append.mp hold with hm | hm
          · rcases List.mem_cons.mp hm with he | hm2
            · exact absurd he hzd
            · exact List.mem_append_right _ hm2
          · exact List.mem_append_left _ hm
        · exact fun z => (hkind3 z).trans (h8 z)
        · rw [← h9]
          by_cases hrP : r = P
          · subst hrP
            simp only [Store.parentAt, hP3, hpgetP, Option.some_bind]
          · simp only [Store.parentAt, hoth3 r hrP (Ne.symm hdr) hr_notin_cs]
        · rw [List.foldl_append, ← h10]
          simp only [List.foldl_cons, List.foldl_nil]
        · intro d2 hd2
          rcases List.mem_append.mp hd2 with hm | hm
          · exact h11 d2 hm
          · rw [List.mem_singleton] at hm
            subst hm
            refine ⟨h12 d2 hdT, hdr, ?_⟩
            rw [← h8 d2]
            simp [Store.kindAt, hdget, hkind]
        · intro z hz
          exact h12 z ((hmempluck z).mp hz).2
        · rw [List.map_append, ← hdndeps]
          exact hres
      · -- the dequeued node is not empty: store unchanged, kids enqueued
        have hstep := rmStep_nonempty hdget hkind
        rw [show rmLoop (fuel + 1) s ((IdT.node d dks).rootId :: List.map IdT.rootId restT)
            = rmLoop fuel s (List.map IdT.rootId restT ++ dn.deps) from by
          simp only [rmLoop, IdT.rootId, hstep]] at hres
        refine ih s T (restT ++ dks) ds0 h1 h2 h3 ?_ hnodup_new hr_new ?_ h8 h9 h10 h11 h12
          res ?_
        · intro x2 hx2
          rcases List.mem_append.mp hx2 with hm | hm
          · exact hsub_new_rest x2 hm
          · exact SubT.trans (SubT.kid hm (SubT.refl _)) hxT
        · intro z hz hzr hemp
          have hold := h7 z hz hzr hemp
          rw [hql] at hold
          rw [idsList_append]
          rcases List.mem_append.mp hold with hm | hm
          · rcases List.mem_cons.mp hm with he | hm2
            · exfalso
              subst he
              rw [show s.kindAt z = some dn.kind from by simp [Store.kindAt, hdget]] at hemp
              exact hkind (Option.some_injective _ hemp)
            · exact List.mem_append_right _ hm2
          · exact List.mem_append_left _ hm
        · rw [List.map_append, ← hdndeps]
          exact hres

/-! ### Full runs of `remove_empty_requirements` -/

/-- Full-run characterization of `remove_empty_requirements` on a decorated
duplicate-free tree: the run succeeds, the result decorates the tree obtained
by plucking a list of originally-empty non-root nodes, no non-root
`EmptyRequirement` survives, kinds are untouched and the root keeps its
parent. -/
theorem removeEmpty_run {fuel : Nat} {s : Store} {T : IdT}
    (hdeco : Deco s T) (hnodup : T.ids.Nodup) :
    ∀ res, removeEmptyRequirements fuel s (some T.rootId) = some res →
    ∃ s2 T2 ds, res = .ok s2 ∧ Deco s2 T2 ∧ T2.ids.Nodup ∧ T2.rootId = T.rootId ∧
      (∀ z, s2.kindAt z = s.kindAt z) ∧ s2.parentAt T.rootId = s.parentAt T.rootId ∧
      T2 = List.foldl (fun t d2 => t.pluck d2) T ds ∧
      (∀ d2 ∈ ds, d2 ∈ T.ids ∧ d2 ≠ T.rootId ∧ s.kindAt d2 = some ReqKind.empty) ∧
      (∀ z ∈ T2.ids, z ≠ T.rootId → s2.kindAt z ≠ some ReqKind.empty) := by
  intro res hres
  cases T with
  | node r ks =>
    obtain ⟨rn, hrget, hrdeps, hrpar, hrkids⟩ := hdeco.inv
    by_cases hnil : rn.deps = []
    · rw [show removeEmptyRequirements fuel s (some (IdT.node r ks).rootId)
          = some (.ok s) from by simp [removeEmptyRequirements, IdT.rootId, hrget, hnil]] at hres
      cases hres
      have hks : ks = [] := by
        rw [hnil] at hrdeps
        exact List.map_eq_nil_iff.mp hrdeps.symm
      subst hks
      refine ⟨s, IdT.node r [], [], rfl, hdeco, hnodup, rfl, fun z => rfl, rfl, rfl, ?_, ?_⟩
      · intro d2 hd2
        cases hd2
      · intro z hz hzr _
        exact hzr (by simpa [IdT.ids, IdT.idsList] using hz)
    · rw [show removeEmptyRequirements fuel s (some (IdT.node r ks).rootId)
          = rmLoop fuel s rn.deps from by
        simp [removeEmptyRequirements, IdT.rootId, hrget, hnil]] at hres
      have hres2 : rmLoop fuel s (ks.map IdT.rootId) = some res := by
        rw [← hrdeps]
        exact hres
      exact rmLoop_run fuel s (IdT.node r ks) ks [] hdeco hnodup rfl
        (fun k hk => SubT.kid hk (SubT.refl k))
        (nodup_ids_head hnodup).2
        (nodup_ids_head hnodup).1
        (by
          intro z hz hzr _
          rcases List.mem_cons.mp hz with he | hm
          · exact absurd he hzr
          · exact hm)
        (fun z => rfl) rfl rfl
        (fun d2 hd2 => absurd hd2 (List.not_mem_nil d2))
        (fun z hz => hz) res hres2

/-- On a store whose decorated tree has no non-root empties, the queue loop
never changes the store: any finished run returns the same store, and enough
fuel guarantees a finished run. -/
theorem rmLoop_id {r : Nat} : ∀ (fuel : Nat) (s : Store) (T : IdT) (qts : List IdT),
    Deco s T → T.ids.Nodup → T.rootId = r →
    (∀ x ∈ qts, SubT x T) → (IdT.idsList qts).Nodup → r ∉ IdT.idsList qts →
    (∀ z ∈ T.ids, z ≠ r → s.kindAt z ≠ some ReqKind.empty) →
    (∀ res, rmLoop fuel s (qts.map IdT.rootId) = some res → res = .ok s) ∧
    ((IdT.idsList qts).length < fuel → rmLoop fuel s (qts.map IdT.rootId) = some (.ok s)) := by
  intro fuel
  induction fuel with
  | zero =>
    intro s T qts h1 h2 h3 h4 h5 h6 h7
    constructor
    · intro res hres
      cases qts with
      | nil =>
        rw [show rmLoop 0 s (List.map IdT.rootId []) = some (.ok s) from rfl] at hres
        exact (Option.some_injective _ hres).symm
      | cons x restT =>
        simp only [List.map_cons, rmLoop] at hres
        exact Option.noConfusion hres
    · intro hlt
      cases qts with
      | nil => rfl
      | cons x restT => exact absurd hlt (Nat.not_lt_zero _)
  | succ fuel ih =>
    intro s T qts h1 h2 h3 h4 h5 h6 h7
    cases qts with
    | nil =>
      constructor
      · intro res hres
        rw [show rmLoop (fuel + 1) s (List.map IdT.rootId []) = some (.ok s) from rfl] at hres
        exact (Option.some_injective _ hres).symm
      · intro _
        rfl
    | cons x restT =>
      obtain ⟨d, dks⟩ := x
      have hxT : SubT (IdT.node d dks) T := h4 _ (List.mem_cons_self _ _)
      have hdT : d ∈ T.ids := hxT.ids_subset _ ((IdT.node d dks).rootId_mem_ids)
      have hdq : d ∈ IdT.idsList (IdT.node d dks :: restT) :=
        mem_idsList.mpr ⟨_, List.mem_cons_self _ _, (IdT.node d dks).rootId_mem_ids⟩
      have hdr : d ≠ r := fun he => h6 (he ▸ hdq)
      obtain ⟨dn, hdget, hdndeps, hpk, hdk⟩ := (h1.sub hxT).inv
      have hkind : dn.kind ≠ ReqKind.empty := by
        intro he
        refine h7 d hdT hdr ?_
        simp [Store.kindAt, hdget, he]
      have hstep := rmStep_nonempty hdget hkind
      have hql : IdT.idsList (IdT.node d dks :: restT)
          = (IdT.node d dks).ids ++ IdT.idsList restT := rfl
      have hnlq2 : ((IdT.node d dks).ids ++ IdT.idsList restT).Nodup := by
        rw [← hql]
        exact h5
      have hnlq3 : (d :: (IdT.idsList dks ++ IdT.idsList restT)).Nodup := hnlq2
      have hnodup_new : (IdT.idsList (restT ++ dks)).Nodup := by
        rw [idsList_append]
        exact (List.perm_append_comm.nodup_iff).mp (List.nodup_cons.mp hnlq3).2
      have hr_new : r ∉ IdT.idsList (restT ++ dks) := by
        rw [idsList_append]
        intro hmem
        rcases List.mem_append.mp hmem with hm | hm
        · exact h6 (by rw [hql]; exact List.mem_append_right _ hm)
        · exact h6 (by rw [hql]; exact List.mem_append_left _ (List.mem_cons.mpr (Or.inr hm)))
      have hsub_new : ∀ x2 ∈ restT ++ dks, SubT x2 T := by
        intro x2 hx2
        rcases List.mem_append.mp hx2 with hm | hm
        · exact h4 x2 (List.mem_cons_of_mem _ hm)
        · exact SubT.trans (SubT.kid hm (SubT.refl _)) hxT
      have hstepLoop : rmLoop (fuel + 1) s ((IdT.node d dks :: restT).map IdT.rootId)
          = rmLoop fuel s (List.map IdT.rootId restT ++ dn.deps) := by
        simp only [List.map_cons, rmLoop, IdT.rootId, hstep]
      have hmapnew : List.map IdT.rootId restT ++ dn.deps = (restT ++ dks).map IdT.rootId := by
        rw [List.map_append, hdndeps]
      have hrec := ih s T (restT ++ dks) h1 h2 h3 hsub_new hnodup_new hr_new h7
      have hlen : (IdT.idsList (restT ++ dks)).length + 1
          = (IdT.idsList (IdT.node d dks :: restT)).length := by
        rw [hql, idsList_append]
        simp only [IdT.ids, List.length_append, List.length_cons]
        omega
      constructor
      · intro res hres
        rw [hstepLoop, hmapnew] at hres
        exact hrec.1 res hres
      · intro hlt
        rw [hstepLoop, hmapnew]
        exact hrec.2 (by omega)

/-! ### Grafting a fresh leaf (`add_dependency` on a fresh child) -/

mutual
/-- Attach a fresh leaf `c` as the last kid of the node with id `r` — the
tree-side image of `Requirement.add_dependency` on a freshly allocated
child. -/
def IdT.graft (r c : Nat) : IdT → IdT
  | .node i ks =>
    if i = r then .node i (ks ++ [.node c []])
    else .node i (IdT.graftList r c ks)
def IdT.graftList (r c : Nat) : List IdT → List IdT
  | [] => []
  | t :: ts => IdT.graft r c t :: IdT.graftList r c ts
end

theorem IdT.graft_rootId (r c : Nat) (t : IdT) : (t.graft r c).rootId = t.rootId := by
  cases t with
  | node i ks =>
    unfold IdT.graft
    split <;> rfl

theorem graftList_eq_map (r c : Nat) : ∀ ks : List IdT,
    IdT.graftList r c ks = ks.map (IdT.graft r c) := by
  intro ks
  induction ks with
  | nil => rfl
  | cons t ts ih =>
    show IdT.graft r c t :: IdT.graftList r c ts = _
    rw [ih, List.map_cons]

theorem graftList_map_rootId (r c : Nat) (ks : List IdT) :
    (IdT.graftList r c ks).map IdT.rootId = ks.map IdT.rootId := by
  rw [graftList_eq_map, List.map_map]
  exact List.map_congr_left (fun x _ => IdT.graft_rootId r c x)

theorem graft_eq_pos {r c i : Nat} {ks : List IdT} (h : i = r) :
    IdT.graft r c (IdT.node i ks) = IdT.node i (ks ++ [IdT.node c []]) := by
  unfold IdT.graft
  rw [if_pos h]

theorem graft_eq_neg {r c i : Nat} {ks : List IdT} (h : ¬ i = r) :
    IdT.graft r c (IdT.node i ks) = IdT.node i (IdT.graftList r c ks) := by
  unfold IdT.graft
  rw [if_neg h]

theorem graftList_congr {r c : Nat} : ∀ ks : List IdT,
    (∀ k ∈ ks, IdT.graft r c k = k) → IdT.graftList r c ks = ks := by
  intro ks h
  induction ks with
  | nil => rfl
  | cons t ts ih =>
    show IdT.graft r c t :: IdT.graftList r c ts = t :: ts
    rw [h t (by simp), ih (fun k hk => h k (by simp [hk]))]

theorem IdT.graft_noop {r c : Nat} {t : IdT} (h : r ∉ t.ids) : t.graft r c = t := by
  induction t using IdT.strongInduction with
  | h i ks ih =>
    have hir : ¬ i = r := fun he => h (he ▸ (IdT.node i ks).rootId_mem_ids)
    rw [graft_eq_neg hir]
    rw [graftList_congr ks (fun k hk => ih k hk
      (fun hrk => h (List.mem_cons.mpr (Or.inr (mem_idsList.mpr ⟨k, hk, hrk⟩)))))]

theorem ids_graftList_perm {r c : Nat} : ∀ {ks : List IdT} {kd : IdT},
    (IdT.idsList ks).Nodup → kd ∈ ks → r ∈ kd.ids →
    List.Perm (IdT.graft r c kd).ids (c :: kd.ids) →
    List.Perm (IdT.idsList (IdT.graftList r c ks)) (c :: IdT.idsList ks) := by
  intro ks
  induction ks with
  | nil => intro kd _ hk _ _; cases hk
  | cons t ts ih =>
    intro kd hn hk hr hperm
    have hn2 : (t.ids ++ IdT.idsList ts).Nodup := by simpa [IdT.idsList] using hn
    have hdisj := List.disjoint_of_nodup_append hn2
    have heqL : IdT.idsList (IdT.graftList r c (t :: ts))
        = (IdT.graft r c t).ids ++ IdT.idsList (IdT.graftList r c ts) := rfl
    have heqR : IdT.idsList (t :: ts) = t.ids ++ IdT.idsList ts := rfl
    by_cases hrt : r ∈ t.ids
    · have htkd : t = kd := by
        rcases List.mem_cons.mp hk with he | hm
        · exact he.symm
        · exact (hdisj hrt (mem_idsList.mpr ⟨kd, hm, hr⟩)).elim
      subst htkd
      have hnoop : IdT.graftList r c ts = ts := by
        refine graftList_congr ts (fun x hx => IdT.graft_noop ?_)
        intro hrx
        exact hdisj hrt (mem_idsList.mpr ⟨x, hx, hrx⟩)
      rw [heqL, heqR, hnoop]
      exact List.Perm.append_right _ hperm
    · have hm : kd ∈ ts := by
        rcases List.mem_cons.mp hk with he | hm
        · exact (hrt (he ▸ hr)).elim
        · exact hm
      have hnoop : IdT.graft r c t = t := IdT.graft_noop hrt
      rw [heqL, heqR, hnoop]
      exact (List.Perm.append_left _ (ih hn2.of_append_right hm hr hperm)).trans
        List.perm_middle

theorem ids_graft {r c : Nat} : ∀ {t : IdT}, t.ids.Nodup → r ∈ t.ids →
    List.Perm (t.graft r c).ids (c :: t.ids) := by
  intro t
  induction t using IdT.strongInduction with
  | h i ks ih =>
    intro hn hr
    by_cases hir : i = r
    · rw [graft_eq_pos hir]
      show List.Perm (i :: IdT.idsList (ks ++ [IdT.node c []])) (c :: i :: IdT.idsList ks)
      rw [idsList_append]
      exact (List.Perm.cons i (List.perm_append_comm)).trans (List.Perm.swap c i _)
    · rw [graft_eq_neg hir]
      have hrl : r ∈ IdT.idsList ks := by
        rcases List.mem_cons.mp (show r ∈ i :: IdT.idsList ks from hr) with he | hm
        · exact absurd he.symm hir
        · exact hm
      obtain ⟨kd, hkd, hrk⟩ := mem_idsList.mp hrl
      have hnl := (nodup_ids_head hn).2
      have hperm := ih kd hkd (nodup_idsList_mem hnl hkd) hrk
      show List.Perm (i :: IdT.idsList (IdT.graftList r c ks)) (c :: i :: IdT.idsList ks)
      exact (List.Perm.cons i (ids_graftList_perm hnl hkd hrk hperm)).trans
        (List.Perm.swap c i _)

theorem nodup_ids_graft {r c : Nat} {t : IdT} (hn : t.ids.Nodup) (hr : r ∈ t.ids)
    (hc : c ∉ t.ids) : (t.graft r c).ids.Nodup :=
  ((ids_graft hn hr).nodup_iff).mpr (List.nodup_cons.mpr ⟨hc, hn⟩)

/-- Decoration of the grafted tree after `add_dependency` on a fresh child. -/
theorem Deco.graft {s s2 : Store} {r c : Nat} : ∀ {T : IdT}, Deco s T → T.ids.Nodup →
    r ∈ T.ids → c ∉ T.ids →
    (∀ rn, s.get r = some rn → s2.get r = some { rn with deps := rn.deps ++ [c] }) →
    (∃ cn, s2.get c = some cn ∧ cn.parent = some r ∧ cn.deps = []) →
    (∀ x, x ≠ r → x ≠ c → s2.get x = s.get x) →
    Deco s2 (T.graft r c) := by
  intro T
  induction T using IdT.strongInduction with
  | h i ks ih =>
    intro hdeco hn hr hc hrrec hcrec hother
    obtain ⟨nd, hget0, hdeps0, hpar0, hkids0⟩ := hdeco.inv
    have hnl := (nodup_ids_head hn).2
    have hcne_i : c ≠ i := fun he => hc (he ▸ (IdT.node i ks).rootId_mem_ids)
    by_cases hir : i = r
    · subst hir
      rw [graft_eq_pos rfl]
      have hget2 : s2.get i = some { nd with deps := nd.deps ++ [c] } := hrrec nd hget0
      refine Deco.node hget2 ?_ ?_ ?_
      · show nd.deps ++ [c] = (ks ++ [IdT.node c []]).map IdT.rootId
        rw [List.map_append, ← hdeps0]
        rfl
      · intro k2 hk2
        rcases List.mem_append.mp hk2 with hm | hm
        · have hkr_ne : k2.rootId ≠ i := mem_kid_ne_root hn hm k2.rootId_mem_ids
          have hkin : k2.rootId ∈ (IdT.node i ks).ids :=
            List.mem_cons.mpr (Or.inr (mem_idsList.mpr ⟨k2, hm, k2.rootId_mem_ids⟩))
          have hkr_nc : k2.rootId ≠ c := fun he => hc (he ▸ hkin)
          simp only [Store.parentAt, hother k2.rootId hkr_ne hkr_nc]
          exact hpar0 k2 hm
        · rw [List.mem_singleton] at hm
          subst hm
          obtain ⟨cn, hcn, hcp, hcd⟩ := hcrec
          show s2.parentAt c = some i
          simp [Store.parentAt, hcn, hcp]
      · intro k2 hk2
        rcases List.mem_append.mp hk2 with hm | hm
        · refine (hkids0 k2 hm).congr (nodup_idsList_mem hnl hm) ?_
          intro z hz
          have hz_ne_i : z ≠ i := mem_kid_ne_root hn hm hz
          have hz_in : z ∈ (IdT.node i ks).ids :=
            List.mem_cons.mpr (Or.inr (mem_idsList.mpr ⟨k2, hm, hz⟩))
          have hz_ne_c : z ≠ c := fun he => hc (he ▸ hz_in)
          obtain ⟨n, hn2⟩ := (hkids0 k2 hm).present_ids hz
          exact ⟨n, n, hn2, by rw [hother z hz_ne_i hz_ne_c]; exact hn2, rfl, fun _ => rfl⟩
        · rw [List.mem_singleton] at hm
          subst hm
          obtain ⟨cn, hcn, hcp, hcd⟩ := hcrec
          refine Deco.node hcn ?_ ?_ ?_
          · rw [hcd]
            rfl
          · intro k3 hk3
            cases hk3
          · intro k3 hk3
            cases hk3
    · rw [graft_eq_neg hir]
      have hget2 : s2.get i = some nd := by
        rw [hother i hir (Ne.symm hcne_i)]
        exact hget0
      have hrl : r ∈ IdT.idsList ks := by
        rcases List.mem_cons.mp (show r ∈ i :: IdT.idsList ks from hr) with he | hm
        · exact absurd he.symm hir
        · exact hm
      refine Deco.node hget2 ?_ ?_ ?_
      · rw [hdeps0, graftList_map_rootId]
      · intro k2 hk2
        rw [graftList_eq_map] at hk2
        obtain ⟨x, hx, hxe⟩ := List.mem_map.mp hk2
        have hroot : k2.rootId = x.rootId := by rw [← hxe, IdT.graft_rootId]
        rw [hroot]
        have hx_in : x.rootId ∈ (IdT.node i ks).ids :=
          List.mem_cons.mpr (Or.inr (mem_idsList.mpr ⟨x, hx, x.rootId_mem_ids⟩))
        have hx_nc : x.rootId ≠ c := fun he => hc (he ▸ hx_in)
        by_cases hxr : x.rootId = r
        · obtain ⟨rn, hrn⟩ := hdeco.present_ids hr
          have hpp := hpar0 x hx
          rw [hxr] at hpp
          simp only [Store.parentAt, hrn, Option.some_bind] at hpp
          rw [hxr]
          simp [Store.parentAt, hrrec rn hrn, hpp]
        · simp only [Store.parentAt, hother x.rootId hxr hx_nc]
          exact hpar0 x hx
      · intro k2 hk2
        rw [graftList_eq_map] at hk2
        obtain ⟨x, hx, hxe⟩ := List.mem_map.mp hk2
        by_cases hrx : r ∈ x.ids
        · rw [← hxe]
          exact ih x hx (hkids0 x hx) (nodup_idsList_mem hnl hx) hrx
            (fun hcx => hc (List.mem_cons.mpr (Or.inr (mem_idsList.mpr ⟨x, hx, hcx⟩))))
            hrrec hcrec hother
        · rw [← hxe, IdT.graft_noop hrx]
          refine (hkids0 x hx).congr (nodup_idsList_mem hnl hx) ?_
          intro z hz
          have hz_in : z ∈ (IdT.node i ks).ids :=
            List.mem_cons.mpr (Or.inr (mem_idsList.mpr ⟨x, hx, hz⟩))
          have hz_nr : z ≠ r := fun he => hrx (he ▸ hz)
          have hz_nc : z ≠ c := fun he => hc (he ▸ hz_in)
          obtain ⟨n, hn2⟩ := (hkids0 x hx).present_ids hz
          exact ⟨n, n, hn2, by rw [hother z hz_nr hz_nc]; exact hn2, rfl, fun _ => rfl⟩

/-- `alloc` + `add_dependency`: the parse-time attachment decorates the
grafted tree, keeps ids duplicate-free and does not touch the root's
parent. -/
theorem attach_wf {s : Store} {T : IdT} (hdeco : Deco s T) (hnodup : T.ids.Nodup)
    (hbound : ∀ z ∈ T.ids, z < s.next) (k : ReqKind) {r : Nat} (hr : r ∈ T.ids) :
    ∃ s2, addDependency (s.alloc k).2 r (s.alloc k).1 = some s2 ∧
      Deco s2 (T.graft r s.next) ∧ (T.graft r s.next).ids.Nodup ∧
      (T.graft r s.next).rootId = T.rootId ∧
      s2.parentAt T.rootId = s.parentAt T.rootId := by
  have hcfresh : s.next ∉ T.ids := fun hm => lt_irrefl _ (hbound _ hm)
  have hrn : r ≠ s.next := fun he => hcfresh (he ▸ hr)
  obtain ⟨rn, hrget⟩ := hdeco.present_ids hr
  have hallocr : (s.alloc k).2.get r = some rn := by
    show (if r = s.next then some ⟨k, none, []⟩ else s.get r) = some rn
    rw [if_neg hrn]
    exact hrget
  have hs1c : (s.alloc k).2.get s.next = some ⟨k, none, []⟩ := by
    show (if s.next = s.next then some (⟨k, none, []⟩ : Node) else s.get s.next) = _
    rw [if_pos rfl]
  have hs1pc : (((s.alloc k).2.set r { rn with deps := rn.deps ++ [s.next] }).get s.next)
      = some ⟨k, none, []⟩ := by
    rw [Store.get_set_ne _ _ (Ne.symm hrn)]
    exact hs1c
  have heq : addDependency (s.alloc k).2 r (s.alloc k).1
      = some (((s.alloc k).2.set r { rn with deps := rn.deps ++ [s.next] }).set
          s.next ⟨k, some r, []⟩) := by
    show addDependency (s.alloc k).2 r s.next
        = some (((s.alloc k).2.set r { rn with deps := rn.deps ++ [s.next] }).set
            s.next ⟨k, some r, []⟩)
    simp only [addDependency, hallocr, hs1pc]
  set s2 : Store := ((s.alloc k).2.set r { rn with deps := rn.deps ++ [s.next] }).set
      s.next ⟨k, some r, []⟩ with hs2def
  have hs2r : s2.get r = some { rn with deps := rn.deps ++ [s.next] } := by
    rw [Store.get_set_ne _ _ hrn]
    exact Store.get_set_self _ _ _
  have hs2c : s2.get s.next = some ⟨k, some r, []⟩ := Store.get_set_self _ _ _
  have hs2x : ∀ x, x ≠ r → x ≠ s.next → s2.get x = s.get x := by
    intro x hxr hxc
    rw [Store.get_set_ne _ _ hxc, Store.get_set_ne _ _ hxr]
    show (if x = s.next then some ⟨k, none, []⟩ else s.get x) = s.get x
    rw [if_neg hxc]
  have hdeco2 : Deco s2 (T.graft r s.next) :=
    Deco.graft hdeco hnodup hr hcfresh
      (fun rn2 hrn2 => by
        have he : rn2 = rn := Option.some_injective _ (hrn2.symm.trans hrget)
        rw [he]
        exact hs2r)
      ⟨⟨k, some r, []⟩, hs2c, rfl, rfl⟩
      hs2x
  refine ⟨s2, heq, hdeco2, nodup_ids_graft hnodup hr hcfresh, IdT.graft_rootId _ _ _, ?_⟩
  have hroot_nc : T.rootId ≠ s.next := fun he => hcfresh (he ▸ T.rootId_mem_ids)
  by_cases hrr : T.rootId = r
  · rw [hrr]
    simp [Store.parentAt, hs2r, hrget]
  · simp only [Store.parentAt, hs2x T.rootId hrr hroot_nc]

/-! ### The structural invariant of the spec -/

/-- The structural invariant of the requirement tree as stated by the spec:
the child relation is acyclic over the tree's nodes, every non-root node's
parent's dependency list contains that node exactly once, and the root has no
parent. -/
def StructInv (s : Store) (r : Nat) (dom : List Nat) : Prop :=
  (∀ x ∈ dom, ¬ Relation.TransGen (childRel s) x x) ∧
  (∀ z ∈ dom, z ≠ r → ∃ P, s.parentAt z = some P ∧ (s.depsAt P).count z = 1) ∧
  s.parentAt r = none

theorem SubT.kid_sub {a k : IdT} (hk : k ∈ a.kids) : SubT k a := by
  cases a with
  | node i ks => exact SubT.kid (by simpa [IdT.kids] using hk) (SubT.refl k)

theorem childRel_kid {s : Store} {T a : IdT} (hdeco : Deco s T) (hsub : SubT a T)
    {y : Nat} (hrel : childRel s a.rootId y) : ∃ kb ∈ a.kids, kb.rootId = y := by
  have hcs := (hdeco.sub hsub).cs_eq
  rw [childRel, hcs] at hrel
  obtain ⟨kb, hkb, hkbr⟩ := List.mem_map.mp hrel
  exact ⟨kb, hkb, hkbr⟩

theorem transGen_descend {s : Store} {T : IdT} (hdeco : Deco s T) :
    ∀ {x y : Nat}, Relation.TransGen (childRel s) x y →
    ∀ a, SubT a T → a.rootId = x →
    ∃ b, SubT b T ∧ b.rootId = y ∧ b.ids.length < a.ids.length := by
  intro x y h
  induction h with
  | single hrel =>
    intro a hsub har
    obtain ⟨kb, hkb, hkbr⟩ := childRel_kid hdeco hsub (har.symm ▸ hrel)
    exact ⟨kb, SubT.trans (SubT.kid_sub hkb) hsub, hkbr, kid_ids_length hkb⟩
  | tail hxy hrel ih =>
    intro a hsub har
    obtain ⟨b, hbT, hbr, hblt⟩ := ih a hsub har
    obtain ⟨kb, hkb, hkbr⟩ := childRel_kid hdeco hbT (hbr.symm ▸ hrel)
    exact ⟨kb, SubT.trans (SubT.kid_sub hkb) hbT, hkbr,
      lt_trans (kid_ids_length hkb) hblt⟩

/-- A decorated duplicate-free tree whose root is parentless satisfies the
spec's structural invariant. -/
theorem wf_structInv {s : Store} {T : IdT} (hdeco : Deco s T) (hn : T.ids.Nodup)
    (hroot : s.parentAt T.rootId = none) : StructInv s T.rootId T.ids := by
  refine ⟨?_, ?_, hroot⟩
  · intro x hx hcyc
    obtain ⟨a, haT, har⟩ := subtree_at hx
    obtain ⟨b, hbT, hbr, hlt⟩ := transGen_descend hdeco hcyc a haT har
    have hba : b = a := subtree_unique hn hbT haT (by rw [hbr, har])
    rw [hba] at hlt
    exact lt_irrefl _ hlt
  · intro z hz hzr
    obtain ⟨P, pks, dsub, hsubP, hdsub_mem, hdsub_root⟩ := locate_parent hz hzr
    obtain ⟨pn0, hpget0, hpdeps0, hppar0, hpk0⟩ := (hdeco.sub hsubP).inv
    have hpard : s.parentAt z = some P := by
      have hq := hppar0 dsub hdsub_mem
      rwa [hdsub_root] at hq
    refine ⟨P, hpard, ?_⟩
    have hdeps : s.depsAt P = pks.map IdT.rootId := (hdeco.sub hsubP).cs_eq
    rw [hdeps]
    have hnodupP : (pks.map IdT.rootId).Nodup :=
      map_rootId_nodup (nodup_ids_head (hsubP.nodup_ids hn)).2
    exact List.count_eq_one_of_mem hnodupP (List.mem_map.mpr ⟨dsub, hdsub_mem, hdsub_root⟩)

/-! ### Fixtures and the claims about the cleanup pass -/

/-- The id-tree decorated by `chainStore`. -/
def chainT : IdT := .node 0 [.node 1 [.node 2 []]]

theorem chainT_deco : Deco chainStore chainT := by
  show Deco chainStore (IdT.node 0 [IdT.node 1 [IdT.node 2 []]])
  refine Deco.node rfl rfl ?_ ?_
  · intro k hk
    rw [List.mem_singleton] at hk
    subst hk
    rfl
  · intro k hk
    rw [List.mem_singleton] at hk
    subst hk
    refine Deco.node rfl rfl ?_ ?_
    · intro k hk
      rw [List.mem_singleton] at hk
      subst hk
      rfl
    · intro k hk
      rw [List.mem_singleton] at hk
      subst hk
      exact Deco.node rfl rfl (fun k hk => absurd hk (List.not_mem_nil k))
        (fun k hk => absurd hk (List.not_mem_nil k))

/-- The result of the cleanup pass on `chainStore`, extracted by evaluation. -/
def rmResChain : Except PErr Store :=
  match removeEmptyRequirements 10 chainStore (some chainT.rootId) with
  | some res => res
  | none => .error .pythonCrash

/-- The store left by the cleanup pass on `chainStore`. -/
def chainStore2 : Store :=
  match rmResChain with
  | .ok s => s
  | .error _ => chainStore

theorem rmResChain_eq : removeEmptyRequirements 10 chainStore (some chainT.rootId)
    = some rmResChain := rfl

theorem rmResChain_ok : rmResChain = .ok chainStore2 := rfl

/-- C2: on every decorated duplicate-free requirement tree, a finished
`remove_empty_requirements` run succeeds and returns a store decorating the
tree obtained by plucking a list of originally-empty non-root nodes — each
pluck removes the node and re-parents its children to the node's former
parent — with no non-root `EmptyRequirement` surviving, all kinds (hence the
root, even a placeholder one) preserved, the root's parent untouched; and the
call is a no-op returning the same store when the root has no children. -/
theorem c2_remove_empty_requirements (fuel : Nat) (s : Store) (T : IdT)
    (hdeco : Deco s T) (hnodup : T.ids.Nodup) :
    (∀ res, removeEmptyRequirements fuel s (some T.rootId) = some res →
      ∃ s2 T2 ds, res = .ok s2 ∧ Deco s2 T2 ∧ T2.ids.Nodup ∧ T2.rootId = T.rootId ∧
        (∀ z, s2.kindAt z = s.kindAt z) ∧ s2.parentAt T.rootId = s.parentAt T.rootId ∧
        T2 = List.foldl (fun t d2 => t.pluck d2) T ds ∧
        (∀ d2 ∈ ds, d2 ∈ T.ids ∧ d2 ≠ T.rootId ∧ s.kindAt d2 = some ReqKind.empty) ∧
        (∀ z ∈ T2.ids, z ≠ T.rootId → s2.kindAt z ≠ some ReqKind.empty)) ∧
    (s.depsAt T.rootId = [] →
      removeEmptyRequirements fuel s (some T.rootId) = some (.ok s)) := by
  constructor
  · exact removeEmpty_run hdeco hnodup
  · intro hdeps
    obtain ⟨rn, hrget⟩ := hdeco.present
    have hthis : s.depsAt T.rootId = rn.deps := by simp [Store.depsAt, hrget]
    rw [hthis] at hdeps
    simp [removeEmptyRequirements, hrget, hdeps]

theorem c2_witness :
    Deco chainStore chainT ∧
    (∃ s2 T2 ds, rmResChain = Except.ok s2 ∧ Deco s2 T2 ∧ T2.ids.Nodup ∧
      T2.rootId = chainT.rootId ∧ (∀ z, s2.kindAt z = chainStore.kindAt z) ∧
      s2.parentAt chainT.rootId = chainStore.parentAt chainT.rootId ∧
      T2 = List.foldl (fun t d2 => t.pluck d2) chainT ds ∧
      (∀ d2 ∈ ds, d2 ∈ chainT.ids ∧ d2 ≠ chainT.rootId ∧
        chainStore.kindAt d2 = some ReqKind.empty) ∧
      (∀ z ∈ T2.ids, z ≠ chainT.rootId → s2.kindAt z ≠ some ReqKind.empty)) :=
  ⟨chainT_deco,
   (c2_remove_empty_requirements 10 chainStore chainT chainT_deco (by decide)).1
     rmResChain rmResChain_eq⟩

/-- C6: the operations building and rewriting the requirement tree preserve
the structural invariant: the invariant (acyclicity, exactly-once membership
in the parent's dependency list, parentless root) holds of every decorated
duplicate-free parentless-root tree, it still holds after
`Requirement.add_dependency` attaches a freshly allocated child anywhere in
the tree, and it still holds after a finished `remove_empty_requirements`
run. -/
theorem c6_invariant_preservation (s : Store) (T : IdT) (hdeco : Deco s T)
    (hnodup : T.ids.Nodup) (hroot : s.parentAt T.rootId = none)
    (hbound : ∀ z ∈ T.ids, z < s.next) :
    StructInv s T.rootId T.ids ∧
    (∀ (k : ReqKind) (r : Nat), r ∈ T.ids →
      ∃ s2 T2, addDependency (s.alloc k).2 r (s.alloc k).1 = some s2 ∧
        Deco s2 T2 ∧ T2.ids.Nodup ∧ T2.rootId = T.rootId ∧
        s2.parentAt T2.rootId = none ∧ StructInv s2 T2.rootId T2.ids) ∧
    (∀ fuel res, removeEmptyRequirements fuel s (some T.rootId) = some res →
      ∃ s2 T2, res = .ok s2 ∧ Deco s2 T2 ∧ T2.ids.Nodup ∧ T2.rootId = T.rootId ∧
        s2.parentAt T2.rootId = none ∧ StructInv s2 T2.rootId T2.ids) := by
  refine ⟨wf_structInv hdeco hnodup hroot, ?_, ?_⟩
  · intro k r hr
    obtain ⟨s2, heq, hdeco2, hnodup2, hroot2, hpar2⟩ := attach_wf hdeco hnodup hbound k hr
    have hrp : s2.parentAt (T.graft r s.next).rootId = none := by
      rw [hroot2, hpar2]
      exact hroot
    exact ⟨s2, T.graft r s.next, heq, hdeco2, hnodup2, hroot2, hrp,
      wf_structInv hdeco2 hnodup2 hrp⟩
  · intro fuel res hres
    obtain ⟨s2, T2, ds, hok, hdeco2, hnodup2, hroot2, hkind2, hpar2, hfold, hds, hnoemp⟩ :=
      removeEmpty_run hdeco hnodup res hres
    have hrp : s2.parentAt T2.rootId = none := by
      rw [hroot2, hpar2]
      exact hroot
    exact ⟨s2, T2, hok, hdeco2, hnodup2, hroot2, hrp, wf_structInv hdeco2 hnodup2 hrp⟩

theorem c6_witness :
    StructInv chainStore chainT.rootId chainT.ids ∧
    (∃ s2 T2, addDependency (chainStore.alloc (ReqKind.quest "X")).2 2
        (chainStore.alloc (ReqKind.quest "X")).1 = some s2 ∧
      Deco s2 T2 ∧ T2.ids.Nodup ∧ T2.rootId = chainT.rootId ∧
      s2.parentAt T2.rootId = none ∧ StructInv s2 T2.rootId T2.ids) ∧
    (∃ s2 T2, rmResChain = Except.ok s2 ∧ Deco s2 T2 ∧ T2.ids.Nodup ∧
      T2.rootId = chainT.rootId ∧ s2.parentAt T2.rootId = none ∧
      StructInv s2 T2.rootId T2.ids) := by
  have h := c6_invariant_preservation chainStore chainT chainT_deco (by decide) rfl
    (by decide)
  exact ⟨h.1, h.2.1 (ReqKind.quest "X") 2 (by decide), h.2.2 10 rmResChain rmResChain_eq⟩

/-- C7: the cleanup pass is idempotent on decorated duplicate-free trees:
after one finished `remove_empty_requirements` run, every finished second run
returns exactly the store the first run produced, and some fuel makes the
second run finish. -/
theorem c7_idempotent (fuel : Nat) (s : Store) (T : IdT)
    (hdeco : Deco s T) (hnodup : T.ids.Nodup) {s2 : Store}
    (h1 : removeEmptyRequirements fuel s (some T.rootId) = some (.ok s2)) :
    (∀ fuel2 res2, removeEmptyRequirements fuel2 s2 (some T.rootId) = some res2 →
      res2 = .ok s2) ∧
    (∃ fuel2, removeEmptyRequirements fuel2 s2 (some T.rootId)
      = some (.ok s2)) := by
  obtain ⟨s2x, T2, ds, hok, hdeco2, hnodup2, hroot2, hkind2, hpar2, hfold, hds, hnoemp⟩ :=
    removeEmpty_run hdeco hnodup (.ok s2) h1
  have hs2 : s2 = s2x := Except.ok.inj hok
  subst hs2
  cases T2 with
  | node r2 ks2 =>
    have hr2 : r2 = T.rootId := hroot2
    subst hr2
    obtain ⟨rn2, hrget2, hrdeps2, hrpar2, hrkids2⟩ := hdeco2.inv
    constructor
    · intro fuel2 res2 hres2
      by_cases hnil : rn2.deps = []
      · rw [show removeEmptyRequirements fuel2 s2 (some T.rootId)
            = some (.ok s2) from by simp [removeEmptyRequirements, hrget2, hnil]] at hres2
        exact (Option.some_injective _ hres2).symm
      · rw [show removeEmptyRequirements fuel2 s2 (some T.rootId)
            = rmLoop fuel2 s2 rn2.deps from by
          simp [removeEmptyRequirements, hrget2, hnil]] at hres2
        have hres3 : rmLoop fuel2 s2 (ks2.map IdT.rootId) = some res2 := by
          rw [← hrdeps2]
          exact hres2
        exact (rmLoop_id fuel2 s2 (IdT.node T.rootId ks2) ks2 hdeco2 hnodup2 rfl
          (fun k2 hk2 => SubT.kid hk2 (SubT.refl k2))
          (nodup_ids_head hnodup2).2 (nodup_ids_head hnodup2).1 hnoemp).1 res2 hres3
    · by_cases hnil : rn2.deps = []
      · exact ⟨0, by simp [removeEmptyRequirements, hrget2, hnil]⟩
      · refine ⟨(IdT.idsList ks2).length + 1, ?_⟩
        rw [show removeEmptyRequirements ((IdT.idsList ks2).length + 1) s2 (some T.rootId)
            = rmLoop ((IdT.idsList ks2).length + 1) s2 rn2.deps from by
          simp [removeEmptyRequirements, hrget2, hnil]]
        rw [hrdeps2]
        exact (rmLoop_id _ s2 (IdT.node T.rootId ks2) ks2 hdeco2 hnodup2 rfl
          (fun k2 hk2 => SubT.kid hk2 (SubT.refl k2))
          (nodup_ids_head hnodup2).2 (nodup_ids_head hnodup2).1 hnoemp).2
          (Nat.lt_succ_self _)

theorem c7_witness :
    Deco chainStore chainT ∧
    (∃ fuel2, removeEmptyRequirements fuel2 chainStore2 (some chainT.rootId)
      = some (Except.ok chainStore2)) :=
  ⟨chainT_deco,
   (c7_idempotent 10 chainStore chainT chainT_deco (by decide) rfl).2⟩

end QuestDb
